import Mathlib

/-!
# Verification of the Tekado product-recommendation core and order-status flow

Shallow embedding of `backend/routes/products.js` (similarity scorer, candidate
pool builder, ranking orchestrator with its external vector-index integration
and fallback ladder) and `backend/utils/orderStatus.js`.

Modelling conventions:
* JavaScript numbers are modelled as `ℚ` (scores, prices, vector components).
  The arithmetic appearing in the source (sums, absolute values, min/max,
  division) is exact on rationals, so `ℚ` matches the intended real-number
  semantics; floating-point rounding is outside the embedding.
* Database product identifiers are integers (`Nat` in the model; the Prisma
  schema uses an autoincrement integer primary key).  The source frequently
  converts ids to strings (`String(doc.id)`) and back (`Number(s)`); the model
  keeps these conversions explicit via `idStr` (decimal printing) and
  `parseNat?` (decimal parsing: the only strings ever parsed back are decimal
  numerals produced by `idStr`, for which JavaScript `Number` agrees with
  `parseNat?`).
* A JavaScript value that is absent / `null` / not of the expected type is
  modelled with `Option`; truthiness of strings ("" is falsy) is `strTruthy`.
* The Prisma catalog store is a `List Product` (row order = store query
  order); `findMany {where, take, orderBy}` is filter / stable sort / take.
* `JavaScript Array.prototype.sort` with a consistent comparator is a stable
  sort; any stable sort for the same total preorder yields the same list, so
  it is modelled by the structurally-recursive stable insertion sort
  `stableSortBy` (`insertBy` places a later element after all elements it
  does not strictly precede).
* `JavaScript Set`/`Map` iterate in first-insertion order; `Map.set`
  overwrites the value but keeps the original key position (`dedupFirst`,
  `jsMapValues`, `lookupLastProduct`).
* Calls to the external vector index may throw; they are modelled as
  `Except Unit` results supplied by a `PineconeEnv` record.  The retried call
  of a query is a distinct slot (`Bool` flag) so a retry may observe a
  different answer than the first call.
-/

/-! ## Decimal strings for identifiers -/

/-- The character for a decimal digit, `'0'`..`'9'`. -/
def digitChar (d : Nat) : Char := Char.ofNat (48 + d)

/-- Big-endian decimal digits of `n`, with explicit fuel (fuel `n` suffices). -/
def toDecAux (fuel n : Nat) : List Char :=
  match fuel with
  | 0 => [digitChar (n % 10)]
  | fuel + 1 =>
    if n < 10 then [digitChar n]
    else toDecAux fuel (n / 10) ++ [digitChar (n % 10)]

/-- Model of JavaScript `String(n)` for a nonnegative integer id. -/
def idStr (n : Nat) : String := ⟨toDecAux n n⟩

/-- Numeric value of a decimal digit character. -/
def digitVal (c : Char) : Nat := c.toNat - 48

/-- Model of JavaScript `Number(s)` restricted to the strings that matter for
identifier handling: a nonempty all-digit string parses to its value, anything
else is rejected (treated like `NaN`, which `Number.isFinite` filters out).
JavaScript `Number` also accepts forms such as `"1.5"` or `"0x10"`, but those
can never equal an integer id string produced by `String(id)`, and id lookups
compare exact strings, so rejecting them is observationally equivalent. -/
def parseNat? (s : String) : Option Nat :=
  if s.data ≠ [] ∧ s.data.all Char.isDigit then
    some (s.data.foldl (fun a c => a * 10 + digitVal c) 0)
  else none

/-! ## JavaScript collection helpers -/

/-- Truthiness of an optional string field: absent and `""` are falsy. -/
def strTruthy : Option String → Bool
  | none => false
  | some s => !s.data.isEmpty

/-- First-occurrence deduplication with an accumulator of already-seen
elements; models iteration order of a JavaScript `Set` built from a list. -/
def dedupFirstAux {α : Type} [DecidableEq α] (seen : List α) : List α → List α
  | [] => []
  | x :: xs => if x ∈ seen then dedupFirstAux seen xs else x :: dedupFirstAux (x :: seen) xs

/-- `Array.from(new Set(l))`: distinct elements of `l` in first-occurrence order. -/
def dedupFirst {α : Type} [DecidableEq α] (l : List α) : List α := dedupFirstAux [] l

/-- `map.get(k)` for a JavaScript `Map` built by successive `set` calls with
keys `key d`: the last inserted value wins. -/
def lookupLast {α : Type} (key : α → String) (l : List α) (k : String) : Option α :=
  l.reverse.find? (fun d => key d == k)

/-- `Array.from(map.values())` for a JavaScript insertion-ordered map built by
`for (x of l) map.set(key x, x)`: first-occurrence key order, last value. -/
def jsMapValues {α : Type} (key : α → String) (l : List α) : List α :=
  (dedupFirst (l.map key)).filterMap (lookupLast key l)

/-! ## Stable sorting (JavaScript `Array.prototype.sort`) -/

/-- Insert `x` (a later element) into an already-sorted list: `x` goes before
the first element it strictly precedes, hence after everything equivalent. -/
def insertBy {α : Type} (lt : α → α → Bool) (x : α) : List α → List α
  | [] => [x]
  | y :: ys => if lt x y then x :: y :: ys else y :: insertBy lt x ys

/-- Stable sort: fold `insertBy` left over the list.  Agrees with JavaScript's
stable `Array.prototype.sort` for a consistent comparator `cmp` when
`lt a b ↔ cmp a b < 0`. -/
def stableSortBy {α : Type} (lt : α → α → Bool) (l : List α) : List α :=
  l.foldl (fun acc x => insertBy lt x acc) []

/-! ## Catalog data model

Fields follow the Prisma `Product` schema (integer autoincrement `id`,
required `name`/`description`/`image`, optional `category`/`brand` text,
float `price`/`rating`, integer `numReviews`/`stock`, `createdAt` timestamp,
optional `pineconeId` text correlating the row with the vector index).
`price : Option ℚ` models a JavaScript number, `none` standing for a value
that is not a usable number (the `typeof !== 'number'` guard in the source).
`category`/`brand` are `Option String`, `none` for SQL `NULL`/absent. -/

structure Product where
  id : Nat
  name : String
  description : String
  price : Option ℚ
  category : Option String
  brand : Option String
  image : String
  stock : Nat
  rating : ℚ
  numReviews : Nat
  createdAt : Int
  pineconeId : Option String
deriving DecidableEq

/-- Shape produced by `normalizeProduct` (drops `pineconeId`, keeps the
listed fields; `Number(product.price)` is the identity on our `Option ℚ`
prices). -/
structure NormalizedProduct where
  id : Nat
  name : String
  description : String
  price : Option ℚ
  category : Option String
  image : String
  brand : Option String
  stock : Nat
  rating : ℚ
  numReviews : Nat
  createdAt : Int
deriving DecidableEq

/-- `normalizeProduct` from the source: projection to the public shape. -/
def normalizeProduct (p : Product) : NormalizedProduct :=
  { id := p.id
    name := p.name
    description := p.description
    price := p.price
    category := p.category
    image := p.image
    brand := p.brand
    stock := p.stock
    rating := p.rating
    numReviews := p.numReviews
    createdAt := p.createdAt }

/-! ## Similarity scorer -/

/-- ASCII lower-casing of one character, as JavaScript `toLowerCase` acts on
the characters that can contribute to a token (`[a-z0-9]`); characters outside
ASCII stay outside `[a-z0-9]` either way and act as separators. -/
def lowerChar (c : Char) : Char :=
  if 'A' ≤ c ∧ c ≤ 'Z' then Char.ofNat (c.toNat + 32) else c

/-- A character that survives the `/[^a-z0-9]+/` split (post-lower-casing). -/
def isTokenChar (c : Char) : Bool := c.isLower || c.isDigit

/-- Splitting on runs of non-token characters, accumulating the current token
in reverse; empty pieces are discarded exactly as `.filter(Boolean)` does. -/
def splitTokensAux : List Char → List Char → List String
  | [], cur => if cur.isEmpty then [] else [⟨cur.reverse⟩]
  | c :: cs, cur =>
    if isTokenChar c then splitTokensAux cs (c :: cur)
    else if cur.isEmpty then splitTokensAux cs []
    else ⟨cur.reverse⟩ :: splitTokensAux cs []

/-- `tokenize` from the source:
`(text || '').toLowerCase().split(/[^a-z0-9]+/).filter(Boolean)`. -/
def tokenize (text : String) : List String :=
  splitTokensAux (text.data.map lowerChar) []

/-- `jaccardSimilarity` from the source: similarity of the token lists via
their sets; `setB.has` is membership in the deduplicated second list, the
union size is the size of the set of both spread together. -/
def jaccardSimilarity (aTokens bTokens : List String) : ℚ :=
  if aTokens.isEmpty || bTokens.isEmpty then 0
  else
    let setA := dedupFirst aTokens
    let setB := dedupFirst bTokens
    let intersection := (setA.filter (fun t => decide (t ∈ setB))).length
    let unionSize := (dedupFirst (setA ++ setB)).length
    if unionSize = 0 then 0 else (intersection : ℚ) / (unionSize : ℚ)

/-- `priceAffinity` from the source; the `typeof !== 'number'` guards are the
`Option` match. -/
def priceAffinity (base candidate : Product) : ℚ :=
  match base.price, candidate.price with
  | some p, some q => 1 - min (|p - q| / max p (max q 1)) 1
  | _, _ => 0

/-- `computeSimilarityScore` from the source: weighted category/brand
equality (JavaScript truthiness guards both sides), name/description token
Jaccard, and price affinity. -/
def computeSimilarityScore (base candidate : Product) : ℚ :=
  (if strTruthy base.category ∧ strTruthy candidate.category ∧
      base.category = candidate.category then 3 else 0)
  + (if strTruthy base.brand ∧ strTruthy candidate.brand ∧
      base.brand = candidate.brand then 2 else 0)
  + jaccardSimilarity (tokenize base.name) (tokenize candidate.name) * 3
  + jaccardSimilarity (tokenize base.description) (tokenize candidate.description)
  + priceAffinity base candidate * 2

/-! ## Catalog store queries (Prisma `findMany`) -/

/-- `FALLBACK_POOL_LIMIT` from the source. -/
def FALLBACK_POOL_LIMIT : Nat := 150

/-- The category part of a Prisma where clause produced by
`buildWhereClause`: either an exact value or an `in` list. -/
inductive CategoryWhere : Type
  | exact (s : String) : CategoryWhere
  | inList (l : List String) : CategoryWhere
deriving DecidableEq

/-- A Prisma where clause as built by `buildWhereClause`: an optional
`id: { notIn: ... }` constraint (an empty list is omitted in the source,
which constrains nothing, exactly like the empty `notIn` here) and an
optional category constraint. -/
structure WhereClause where
  notIn : List Nat
  category : Option CategoryWhere
deriving DecidableEq

/-- Row predicate of a where clause. -/
def matchesWhere (w : WhereClause) (p : Product) : Bool :=
  decide (p.id ∉ w.notIn) &&
    (match w.category with
     | none => true
     | some (CategoryWhere.exact s) => decide (p.category = some s)
     | some (CategoryWhere.inList l) =>
       match p.category with
       | some c => decide (c ∈ l)
       | none => false)

/-- `toNumericIds` from the source:
`Array.from(ids).map(Number).filter(Number.isFinite)`. -/
def toNumericIds (ids : List String) : List Nat := ids.filterMap parseNat?

/-- The recommendation-level category filter handed to `buildWhereClause`
(`{}`, `{category: string}` or `{category: {$in: [...]}}`), as an optional
tagged value. -/
def filterCategoryFalsy : Option CategoryWhere → Bool
  | none => true
  | some (CategoryWhere.exact s) => s.data.isEmpty
  | some (CategoryWhere.inList _) => false

/-- `buildWhereClause` from the source.  A falsy `filter.category` (absent or
`""`) contributes no category constraint; `$in`/`in` arrays become an `in`
constraint; otherwise the raw string is an exact constraint. -/
def buildWhereClause (excludeIds : List String) (filter : Option CategoryWhere) :
    WhereClause :=
  { notIn := toNumericIds excludeIds
    category :=
      match filter with
      | none => none
      | some (CategoryWhere.exact s) =>
        if s.data.isEmpty then none else some (CategoryWhere.exact s)
      | some (CategoryWhere.inList l) => some (CategoryWhere.inList l) }

/-- `prisma.product.findMany({ where, take })`: rows in store order. -/
def findManyTake (catalog : List Product) (w : WhereClause) (n : Nat) : List Product :=
  (catalog.filter (matchesWhere w)).take n

/-- `buildCandidatePool` from the source. -/
def buildCandidatePool (catalog : List Product) (excludeIds : List String)
    (filter : Option CategoryWhere) : List Product :=
  let primary := findManyTake catalog (buildWhereClause excludeIds filter) FALLBACK_POOL_LIMIT
  if filterCategoryFalsy filter || decide (5 ≤ primary.length) then primary
  else
    let primaryIds := excludeIds ++ primary.map (fun d => idStr d.id)
    let supplemental := findManyTake catalog (buildWhereClause primaryIds none) FALLBACK_POOL_LIMIT
    jsMapValues (fun d => idStr d.id) (primary ++ supplemental)

/-- The `RANK_SORT` comparison: rating desc, then numReviews desc, then
createdAt desc — as the strict "comes before" relation. -/
def rankLt (a b : Product) : Bool :=
  if a.rating = b.rating then
    if a.numReviews = b.numReviews then decide (b.createdAt < a.createdAt)
    else decide (b.numReviews < a.numReviews)
  else decide (b.rating < a.rating)

/-- `prisma.product.findMany({ where, orderBy: RANK_SORT, take })`. -/
def findManyRanked (catalog : List Product) (w : WhereClause) (n : Nat) : List Product :=
  (stableSortBy rankLt (catalog.filter (matchesWhere w))).take n

/-- `fetchBackupProducts` from the source: ranked query excluding
`excludeIds`; if that is empty, the same ranked query with no exclusion. -/
def fetchBackupProducts (catalog : List Product) (excludeIds : List String)
    (limit : Nat) : List Product :=
  let candidates := findManyRanked catalog (buildWhereClause excludeIds none) limit
  if candidates.isEmpty then (stableSortBy rankLt catalog).take limit
  else candidates

/-! ## Local-scoring fallbacks -/

/-- The dedupe-and-cap loop shared by both fallbacks:
`for ({candidate} of scored) { skip if seen; push; break once limit reached }`.
`seen` holds the id strings already pushed (starting empty), `count` the
number of results so far. -/
def collectCandidates (limit : Nat) : List Product → List String → Nat → List Product
  | [], _, _ => []
  | c :: cs, seen, count =>
    if idStr c.id ∈ seen then collectCandidates limit cs seen count
    else if limit ≤ count + 1 then [c]
    else c :: collectCandidates limit cs (idStr c.id :: seen) (count + 1)

/-- Sort-by-score comparator of both fallbacks: `(a, b) => b.score - a.score`
as the strict "comes before" relation `score a > score b` (the score of each
pool entry against a fixed scoring function). -/
def scoreLt (score : Product → ℚ) (a b : Product) : Bool :=
  decide (score b < score a)

/-- `product.category ? { category: product.category } : {}`. -/
def similarFilter (product : Product) : Option CategoryWhere :=
  if strTruthy product.category then
    match product.category with
    | some c => some (CategoryWhere.exact c)
    | none => none
  else none

/-- `fallbackSimilarProducts` from the source. -/
def fallbackSimilarProducts (catalog : List Product) (product : Product)
    (limit : Nat) : List NormalizedProduct :=
  let excludeIds := [idStr product.id]
  let pool := buildCandidatePool catalog excludeIds (similarFilter product)
  if pool.isEmpty then
    let backups := fetchBackupProducts catalog excludeIds limit
    if backups.isEmpty then [normalizeProduct product]
    else backups.map normalizeProduct
  else
    let scored := stableSortBy (scoreLt (computeSimilarityScore product)) pool
    let results := collectCandidates limit scored [] 0
    if results.isEmpty then
      let backups := fetchBackupProducts catalog excludeIds limit
      if backups.isEmpty then [normalizeProduct product]
      else backups.map normalizeProduct
    else results.map normalizeProduct

/-- The per-candidate group score of `fallbackRecommendationsForGroup`:
`let bestScore = 0; for (base of products) bestScore = max(bestScore, score)`. -/
def groupScore (products : List Product) (candidate : Product) : ℚ :=
  products.foldl (fun best base => max best (computeSimilarityScore base candidate)) 0

/-- `products.map(p => p.category).filter(Boolean)`. -/
def groupCategories (products : List Product) : List String :=
  (products.map Product.category).filterMap (fun c => if strTruthy c then c else none)

/-- `categories.length ? { category: { $in: [...new Set(categories)] } } : {}`. -/
def groupFilter (products : List Product) : Option CategoryWhere :=
  if (groupCategories products).isEmpty then none
  else some (CategoryWhere.inList (dedupFirst (groupCategories products)))

/-- `fallbackRecommendationsForGroup` from the source. -/
def fallbackRecommendationsForGroup (catalog : List Product)
    (products : List Product) (limit : Nat) : List NormalizedProduct :=
  let excludeIds := products.map (fun p => idStr p.id)
  let pool := buildCandidatePool catalog excludeIds (groupFilter products)
  if pool.isEmpty then
    let backups := fetchBackupProducts catalog excludeIds limit
    if backups.isEmpty then (products.map normalizeProduct).take limit
    else backups.map normalizeProduct
  else
    let scored := stableSortBy (scoreLt (groupScore products)) pool
    let results := collectCandidates limit scored [] 0
    if results.isEmpty then
      let backups := fetchBackupProducts catalog excludeIds limit
      if backups.isEmpty then (products.map normalizeProduct).take limit
      else backups.map normalizeProduct
    else results.map normalizeProduct

/-! ## External vector index (Pinecone client boundary)

The client functions (`queryById`, `queryByVector`, `fetchVectors`) and the
sync trigger (`ensureProductSyncedWithPinecone`) live outside this module; a
`PineconeEnv` supplies their answers, `Except.error` standing for a thrown
exception.  Queries that the orchestrator issues twice (initial call and the
retry after a resync) get a `Bool` retry flag so the two calls may observe
different answers. -/

structure VectorMatchMeta where
  mongoId : Option String
  id : Option String

structure VectorMatch where
  metadata : Option VectorMatchMeta
  id : Option String

structure QueryResult where
  matchList : List VectorMatch

/-- `fetchVectors` answers are keyed maps `id → { values }`; the model maps
each id to `some values` when a record with a nonempty well-formed `values`
array could be produced, collapsing the "record missing" and "values missing
or not an array" cases the source treats identically. -/
structure PineconeEnv where
  queryById : Bool → String → Nat → Except Unit QueryResult
  queryByVector : List ℚ → Nat → Except Unit QueryResult
  fetchVectors : Bool → List String → Except Unit (String → Option (List ℚ))
  ensureSynced : Product → Except Unit Bool

/-- JavaScript `x || y` on optional strings where `""` is falsy. -/
def strOr (o : Option String) : Option String :=
  match o with
  | some s => if s.data.isEmpty then none else some s
  | none => none

/-- `getVectorProductId` from the source. -/
def getVectorProductId (m : VectorMatch) : Option String :=
  match m.metadata with
  | some md =>
    match strOr md.mongoId with
    | some v => some v
    | none =>
      match strOr md.id with
      | some v => some v
      | none => strOr m.id
  | none => strOr m.id

/-- `toIdString(product.pineconeId || product.id)`. -/
def baseIdOf (p : Product) : String :=
  match strOr p.pineconeId with
  | some s => s
  | none => idStr p.id

/-- `loadNormalizedProductsByIds` from the source. -/
def loadNormalizedProductsByIds (catalog : List Product) (ids : List String) :
    List NormalizedProduct :=
  let uniqueIds := (dedupFirst ids).filter (fun s => !s.data.isEmpty)
  if uniqueIds.isEmpty then []
  else
    let numericIds := uniqueIds.filterMap parseNat?
    if numericIds.isEmpty then []
    else
      let docs := catalog.filter (fun d => decide (d.id ∈ numericIds))
      (uniqueIds.filterMap (lookupLast (fun d => idStr d.id) docs)).map normalizeProduct

/-- The match loop of `pineconeSimilarRecommendations`: skip matches with no
usable id or an already-seen id, keep at most `limit` ids (`seen` starts as
`{baseId}` while the kept list starts empty, hence the separate count). -/
def collectMatchIds (limit : Nat) : List VectorMatch → List String → Nat → List String
  | [], _, _ => []
  | m :: ms, seen, count =>
    match getVectorProductId m with
    | none => collectMatchIds limit ms seen count
    | some pid =>
      if pid ∈ seen then collectMatchIds limit ms seen count
      else if limit ≤ count + 1 then [pid]
      else pid :: collectMatchIds limit ms (pid :: seen) (count + 1)

/-- `!result || !Array.isArray(result.matches) || !result.matches.length`. -/
def usableResult : Option QueryResult → Bool
  | some r => !r.matchList.isEmpty
  | none => false

/-- `pineconeSimilarRecommendations` from the source.  The initial query has
its own `try` (a throw leaves `result` undefined); a throw out of the
resync-and-retry block returns `[]`; everything after is throw-free. -/
def pineconeSimilarRecommendations (env : PineconeEnv) (catalog : List Product)
    (product : Product) (limit : Nat) : List NormalizedProduct :=
  let baseId := baseIdOf product
  if baseId.data.isEmpty then []
  else
    let first : Option QueryResult := (env.queryById false baseId (limit + 3)).toOption
    let retried : Except Unit (Option QueryResult) :=
      if usableResult first then Except.ok first
      else
        match env.ensureSynced product with
        | Except.error e => Except.error e
        | Except.ok _ =>
          match env.queryById true baseId (limit + 3) with
          | Except.error e => Except.error e
          | Except.ok r => Except.ok (some r)
    match retried with
    | Except.error _ => []
    | Except.ok result =>
      let resultMatches := match result with
        | some r => r.matchList
        | none => []
      let orderedIds := collectMatchIds limit resultMatches [baseId] 0
      loadNormalizedProductsByIds catalog orderedIds

/-- The single-product recommendation operation as composed by the
`/:id/similar` route: vector-index recommendations first, local fallback when
they are empty. -/
def recommendSimilar (env : PineconeEnv) (catalog : List Product)
    (product : Product) (limit : Nat) : List NormalizedProduct :=
  let recs := pineconeSimilarRecommendations env catalog product limit
  if recs.isEmpty then fallbackSimilarProducts catalog product limit else recs

/-- The match loop of `pineconeGroupRecommendations`: the constant `exclude`
set and the growing `seen` set both start as the base ids. -/
def collectGroupMatchIds (limit : Nat) (exclude : List String) :
    List VectorMatch → List String → Nat → List String
  | [], _, _ => []
  | m :: ms, seen, count =>
    match getVectorProductId m with
    | none => collectGroupMatchIds limit exclude ms seen count
    | some pid =>
      if pid ∈ exclude ∨ pid ∈ seen then collectGroupMatchIds limit exclude ms seen count
      else if limit ≤ count + 1 then [pid]
      else pid :: collectGroupMatchIds limit exclude ms (pid :: seen) (count + 1)

/-- `vectorMap?.[id]?.values` usability check:
`Array.isArray(values) && values.length`. -/
def validValues : Option (List ℚ) → Bool
  | some vs => !vs.isEmpty
  | none => false

/-- `pineconeGroupRecommendations` from the source.  Both `fetchVectors`
calls have their own `try` (a throw yields the empty map); the per-product
resync loop swallows its own errors and its only effect is external, so it
contributes nothing to the model's state; a throw from `queryByVector`
reaches the surrounding `try` and yields `[]`.  When retrieved vectors have
unequal lengths the JavaScript centroid would contain `NaN` (reading past a
shorter vector's end); the model reads missing components as 0 — no claim
constrains the centroid's value, only which catalog entries the returned
match ids select. -/
def pineconeGroupRecommendations (env : PineconeEnv) (catalog : List Product)
    (products : List Product) (limit : Nat) : List NormalizedProduct :=
  if products.isEmpty then []
  else
    let baseIds := (products.map baseIdOf).filter (fun s => !s.data.isEmpty)
    if baseIds.isEmpty then []
    else
      let vectorMapFirst : String → Option (List ℚ) :=
        ((env.fetchVectors false baseIds).toOption).getD (fun _ => none)
      let missingIds := baseIds.filter (fun id => !validValues (vectorMapFirst id))
      let vectorMap : String → Option (List ℚ) :=
        if missingIds.isEmpty then vectorMapFirst
        else ((env.fetchVectors true baseIds).toOption).getD (fun _ => none)
      let vectors := (baseIds.map vectorMap).filterMap
        (fun o => if validValues o then o else none)
      if vectors.isEmpty then []
      else
        let dim := (vectors.headI).length
        let centroid := (List.range dim).map
          (fun i => (vectors.foldl (fun acc v => acc + v.getD i 0) 0) / (vectors.length : ℚ))
        match env.queryByVector centroid (limit + baseIds.length + 3) with
        | Except.error _ => []
        | Except.ok qr =>
          let orderedIds := collectGroupMatchIds limit baseIds qr.matchList baseIds 0
          loadNormalizedProductsByIds catalog orderedIds

/-- The group recommendation operation as composed by the
`/recommendations` route: vector-index recommendations first, local fallback
when they are empty. -/
def recommendForGroup (env : PineconeEnv) (catalog : List Product)
    (products : List Product) (limit : Nat) : List NormalizedProduct :=
  let recs := pineconeGroupRecommendations env catalog products limit
  if recs.isEmpty then fallbackRecommendationsForGroup catalog products limit else recs

/-! ## Order status flow (`backend/utils/orderStatus.js`) -/

/-- One step of the fulfilment flow / one appended history entry (the
`enteredAt` wall-clock timestamp is outside the embedding). -/
structure StatusEntry where
  code : String
  label : String
  description : String
deriving DecidableEq

/-- `ORDER_STATUS_FLOW` from the source. -/
def ORDER_STATUS_FLOW : List StatusEntry :=
  [ { code := "ORDER_PLACED", label := "Order placed",
      description := "We received your order and secured the inventory in our warehouse." }
  , { code := "PAYMENT_VERIFIED", label := "Payment verified",
      description := "Your payment cleared successfully and funds have been captured securely." }
  , { code := "PICKING_ITEMS", label := "Picking items",
      description := "Our fulfillment team is picking each item and preparing the packaging." }
  , { code := "QUALITY_CHECK", label := "Quality assurance",
      description := "Every component passes a quick diagnostics check before sealing the box." }
  , { code := "PACKED_FOR_SHIPMENT", label := "Packed for shipment",
      description := "Packaging is sealed with tamper protection and awaiting carrier handoff." }
  , { code := "HANDOFF_TO_CARRIER", label := "Handed to carrier",
      description := "Your parcel has been scanned by the carrier and is leaving our facility." }
  , { code := "IN_TRANSIT", label := "In transit",
      description := "The shipment is moving through carrier hubs on the way to your region." }
  , { code := "AT_LOCAL_DEPOT", label := "Arrived locally",
      description := "Your order reached the local distribution center and is being sorted." }
  , { code := "OUT_FOR_DELIVERY", label := "Out for delivery",
      description := "A courier has your parcel on the truck and will attempt delivery today." }
  , { code := "DELIVERED", label := "Delivered",
      description := "Delivery confirmed. Check your doorstep or reception area for the package." }
  , { code := "DELIVERY_CONFIRMED", label := "Delivery verified",
      description := "Proof of delivery captured and your order is now closed. Enjoy your gear!" }
  ]

/-- The order state touched by `advanceStatus`. -/
structure OrderState where
  statusIndex : Nat
  statusHistory : List StatusEntry
deriving DecidableEq

/-- Return value `{ advanced, updates }` of `advanceStatus`. -/
structure AdvanceResult where
  advanced : Bool
  updates : List StatusEntry
deriving DecidableEq

/-- `advanceStatus` from the source.  The draw of `Math.random()` is the
explicit parameter `q`; the source computes
`jump = max(1, floor(random() * (maxJump + 1)))` and walks the flow from
`statusIndex + 1` to `targetIndex`, appending one history entry per step. -/
def advanceStatus (q : ℚ) (order : OrderState) : AdvanceResult × OrderState :=
  if ORDER_STATUS_FLOW.length - 1 ≤ order.statusIndex then
    ({ advanced := false, updates := [] }, order)
  else
    let remaining := ORDER_STATUS_FLOW.length - 1 - order.statusIndex
    let maxJump := min 2 remaining
    let jump := max 1 (Int.toNat ⌊q * (maxJump + 1 : ℚ)⌋)
    let targetIndex := min (order.statusIndex + jump) (ORDER_STATUS_FLOW.length - 1)
    let updates := (ORDER_STATUS_FLOW.drop (order.statusIndex + 1)).take
      (targetIndex - order.statusIndex)
    if updates.isEmpty then ({ advanced := false, updates := [] }, order)
    else ({ advanced := true, updates := updates },
      { statusIndex := targetIndex
        statusHistory := order.statusHistory ++ updates })

/-! ## Spec-side similarity formula (for refinement of the scorer) -/

/-- The token set of a field, per the spec's description of tokenization. -/
def specTokenSet (s : String) : Finset String := (tokenize s).toFinset

/-- The spec's Jaccard similarity on token sets: `|A ∩ B| / |A ∪ B|`, defined
as 0 if either set is empty. -/
def specJaccard (A B : Finset String) : ℚ :=
  if A = ∅ ∨ B = ∅ then 0 else ((A ∩ B).card : ℚ) / ((A ∪ B).card : ℚ)

/-- The spec's price affinity on the two (possibly non-numeric) prices. -/
def specPriceAffinity (pa pb : Option ℚ) : ℚ :=
  match pa, pb with
  | some p, some q => 1 - min (|p - q| / max p (max q 1)) 1
  | _, _ => 0

/-- The spec's "[field equal]" Iverson bracket: both present (truthy) and
equal; a missing field makes the term 0. -/
def specFieldEq (a b : Option String) : Bool := strTruthy a && strTruthy b && a == b

/-- The spec's composite score:
`3·[category equal] + 2·[brand equal] + 3·nameJaccard + 1·descriptionJaccard
+ 2·priceAffinity`. -/
def specScore (a b : Product) : ℚ :=
  3 * (if specFieldEq a.category b.category then 1 else 0)
  + 2 * (if specFieldEq a.brand b.brand then 1 else 0)
  + 3 * specJaccard (specTokenSet a.name) (specTokenSet b.name)
  + 1 * specJaccard (specTokenSet a.description) (specTokenSet b.description)
  + 2 * specPriceAffinity a.price b.price

/-! ## Concrete inputs used by witnesses and counterexamples

The unnamed fields of the claims' example products (image, stock, rating,
review count, creation time) are irrelevant to every property below and
default to empty/zero. -/

/-- Entry 1 of the spec's concrete three-product scenario. -/
def p1 : Product :=
  { id := 1, name := "Widget Pro", description := "best widget", price := some 10
    category := some "A", brand := some "X", image := "", stock := 0
    rating := 0, numReviews := 0, createdAt := 0, pineconeId := none }

/-- Entry 2 of the spec's concrete three-product scenario. -/
def p2 : Product :=
  { id := 2, name := "Widget Max", description := "great widget", price := some 12
    category := some "A", brand := some "X", image := "", stock := 0
    rating := 0, numReviews := 0, createdAt := 0, pineconeId := none }

/-- Entry 3 of the spec's concrete three-product scenario. -/
def p3 : Product :=
  { id := 3, name := "Gadget", description := "unrelated device", price := some 500
    category := some "B", brand := some "Y", image := "", stock := 0
    rating := 0, numReviews := 0, createdAt := 0, pineconeId := none }

/-- A vector-index environment in which every call throws (also the model of
an absent/misconfigured index, whose client calls reject immediately). -/
def errEnv : PineconeEnv :=
  { queryById := fun _ _ _ => Except.error ()
    queryByVector := fun _ _ => Except.error ()
    fetchVectors := fun _ _ => Except.error ()
    ensureSynced := fun _ => Except.error () }

/-- A 154-row catalog with four "A"-category rows and 150 "B"-category rows:
the thin filtered pool (4 < 5) triggers the supplementary unfiltered query
and the merged pool overshoots the 150 pool limit. -/
def catC2 : List Product := (List.range 154).map (fun i =>
  { id := i, name := "item", description := "thing", price := some 1
    category := some (if i < 4 then "A" else "B"), brand := none, image := ""
    stock := 0, rating := 0, numReviews := 0, createdAt := 0, pineconeId := none })

/-- A product all of whose scoring fields are non-empty strings, but whose
name and description hold no alphanumeric character and hence tokenize to
nothing. -/
def exC5 : Product :=
  { id := 7, name := ".", description := ".", price := some 1
    category := some "A", brand := some "B", image := "", stock := 0
    rating := 0, numReviews := 0, createdAt := 0, pineconeId := none }

/-! ## Theorems -/

theorem digitVal_digitChar {d : Nat} (h : d < 10) : digitVal (digitChar d) = d := by
  interval_cases d <;> decide

theorem isDigit_digitChar {d : Nat} (h : d < 10) : (digitChar d).isDigit = true := by
  interval_cases d <;> decide

theorem toDecAux_foldl (fuel : Nat) : ∀ n a, n ≤ fuel →
    (toDecAux fuel n).foldl (fun a c => a * 10 + digitVal c) a
      = a * 10 ^ (toDecAux fuel n).length + n := by
  induction fuel with
  | zero =>
    intro n a hn
    have hn0 : n = 0 := Nat.le_zero.mp hn
    subst hn0
    simp [toDecAux, digitVal_digitChar (by norm_num : (0:Nat) < 10)]
  | succ fuel ih =>
    intro n a hn
    by_cases h10 : n < 10
    · simp [toDecAux, h10, digitVal_digitChar h10]
    · have hdiv : n / 10 ≤ fuel := by
        have h1 : n / 10 < n := Nat.div_lt_self (by omega) (by norm_num)
        omega
      have hmod : n % 10 < 10 := Nat.mod_lt _ (by norm_num)
      simp only [toDecAux, if_neg h10, List.foldl_append, List.length_append,
        List.foldl_cons, List.foldl_nil, List.length_cons, List.length_nil,
        Nat.zero_add]
      rw [ih (n / 10) a hdiv, digitVal_digitChar hmod, pow_succ]
      have hdm : 10 * (n / 10) + n % 10 = n := Nat.div_add_mod n 10
      calc (a * 10 ^ (toDecAux fuel (n / 10)).length + n / 10) * 10 + n % 10
          = a * (10 ^ (toDecAux fuel (n / 10)).length * 10) + (10 * (n / 10) + n % 10) := by
            ring
        _ = a * (10 ^ (toDecAux fuel (n / 10)).length * 10) + n := by rw [hdm]

theorem toDecAux_all_digits (fuel : Nat) : ∀ n, n ≤ fuel →
    (toDecAux fuel n).all Char.isDigit = true := by
  induction fuel with
  | zero =>
    intro n hn
    have hn0 : n = 0 := Nat.le_zero.mp hn
    subst hn0
    simp [toDecAux, isDigit_digitChar (by norm_num : (0:Nat) < 10)]
  | succ fuel ih =>
    intro n hn
    by_cases h10 : n < 10
    · simp [toDecAux, h10, isDigit_digitChar h10]
    · have hdiv : n / 10 ≤ fuel := by
        have h1 : n / 10 < n := Nat.div_lt_self (by omega) (by norm_num)
        omega
      have hmod : n % 10 < 10 := Nat.mod_lt _ (by norm_num)
      simp [toDecAux, if_neg h10, ih (n / 10) hdiv, isDigit_digitChar hmod]

theorem toDecAux_ne_nil (fuel n : Nat) : toDecAux fuel n ≠ [] := by
  cases fuel with
  | zero => simp [toDecAux]
  | succ fuel =>
    by_cases h10 : n < 10
    · simp [toDecAux, h10]
    · simp [toDecAux, h10]

/-- Round trip: parsing the decimal string of an id gives the id back. -/
theorem parseNat?_idStr (n : Nat) : parseNat? (idStr n) = some n := by
  have hdata : (idStr n).data = toDecAux n n := rfl
  have hne : toDecAux n n ≠ [] := toDecAux_ne_nil n n
  have hall : (toDecAux n n).all Char.isDigit = true := toDecAux_all_digits n n le_rfl
  have hfold := toDecAux_foldl n n 0 le_rfl
  simp only [parseNat?, hdata]
  rw [if_pos ⟨hne, hall⟩, hfold]
  simp

/-- Decimal printing of ids is injective. -/
theorem idStr_injective : Function.Injective idStr := by
  intro m n h
  have hm := parseNat?_idStr m
  have hn := parseNat?_idStr n
  rw [h, hn] at hm
  exact (Option.some.injEq _ _).mp hm.symm

theorem idStr_ne_empty (n : Nat) : idStr n ≠ "" := by
  intro h
  have : (idStr n).data = toDecAux n n := rfl
  rw [h] at this
  exact toDecAux_ne_nil n n this.symm

theorem idStr_isEmpty_false (n : Nat) : (idStr n).data.isEmpty = false := by
  have h := toDecAux_ne_nil n n
  have hdata : (idStr n).data = toDecAux n n := rfl
  rw [hdata]
  exact List.isEmpty_eq_false.mpr h

theorem mem_dedupFirstAux {α : Type} [DecidableEq α] {x : α} :
    ∀ {l seen : List α}, x ∈ dedupFirstAux seen l ↔ x ∈ l ∧ x ∉ seen := by
  intro l
  induction l with
  | nil => intro seen; simp [dedupFirstAux]
  | cons y ys ih =>
    intro seen
    by_cases hy : y ∈ seen
    · simp only [dedupFirstAux, if_pos hy, ih, List.mem_cons]
      constructor
      · rintro ⟨hm, hs⟩; exact ⟨Or.inr hm, hs⟩
      · rintro ⟨hm | hm, hs⟩
        · subst hm; exact absurd hy hs
        · exact ⟨hm, hs⟩
    · simp only [dedupFirstAux, if_neg hy, List.mem_cons, ih]
      constructor
      · rintro (hx | ⟨hm, hs⟩)
        · subst hx; exact ⟨Or.inl rfl, hy⟩
        · exact ⟨Or.inr hm, fun h => hs (Or.inr h)⟩
      · rintro ⟨hx | hm, hs⟩
        · exact Or.inl hx
        · by_cases hxy : x = y
          · exact Or.inl hxy
          · exact Or.inr ⟨hm, by simp [hxy, hs]⟩

theorem mem_dedupFirst {α : Type} [DecidableEq α] {x : α} {l : List α} :
    x ∈ dedupFirst l ↔ x ∈ l := by
  simp [dedupFirst, mem_dedupFirstAux]

theorem nodup_dedupFirstAux {α : Type} [DecidableEq α] :
    ∀ (l seen : List α), (dedupFirstAux seen l).Nodup := by
  intro l
  induction l with
  | nil => intro seen; simp [dedupFirstAux]
  | cons y ys ih =>
    intro seen
    by_cases hy : y ∈ seen
    · simpa [dedupFirstAux, if_pos hy] using ih seen
    · simp only [dedupFirstAux, if_neg hy, List.nodup_cons]
      refine ⟨fun hmem => ?_, ih (y :: seen)⟩
      have := mem_dedupFirstAux.mp hmem
      exact this.2 (List.mem_cons_self _ _)

theorem nodup_dedupFirst {α : Type} [DecidableEq α] (l : List α) :
    (dedupFirst l).Nodup := nodup_dedupFirstAux l []

theorem sublist_dedupFirstAux {α : Type} [DecidableEq α] :
    ∀ (l seen : List α), (dedupFirstAux seen l).Sublist l := by
  intro l
  induction l with
  | nil => intro seen; simp [dedupFirstAux]
  | cons y ys ih =>
    intro seen
    by_cases hy : y ∈ seen
    · simpa [dedupFirstAux, if_pos hy] using (ih seen).cons y
    · simpa [dedupFirstAux, if_neg hy] using (ih (y :: seen)).cons₂ y

theorem sublist_dedupFirst {α : Type} [DecidableEq α] (l : List α) :
    (dedupFirst l).Sublist l := sublist_dedupFirstAux l []

theorem length_dedupFirst_le {α : Type} [DecidableEq α] (l : List α) :
    (dedupFirst l).length ≤ l.length := (sublist_dedupFirst l).length_le

theorem toFinset_dedupFirst {α : Type} [DecidableEq α] (l : List α) :
    (dedupFirst l).toFinset = l.toFinset := by
  ext x
  simp [List.mem_toFinset, mem_dedupFirst]

theorem length_dedupFirst_eq_card {α : Type} [DecidableEq α] (l : List α) :
    (dedupFirst l).length = l.toFinset.card := by
  rw [← toFinset_dedupFirst l, List.toFinset_card_of_nodup (nodup_dedupFirst l)]

theorem lookupLast_mem {α : Type} {key : α → String} {l : List α} {k : String} {d : α}
    (h : lookupLast key l k = some d) : d ∈ l := by
  have := List.mem_of_find?_eq_some h
  exact (List.mem_reverse).mp this

theorem lookupLast_key {α : Type} {key : α → String} {l : List α} {k : String} {d : α}
    (h : lookupLast key l k = some d) : key d = k := by
  have := List.find?_some h
  exact eq_of_beq this

theorem jsMapValues_mem {α : Type} {key : α → String} {l : List α} {d : α}
    (h : d ∈ jsMapValues key l) : d ∈ l := by
  obtain ⟨k, _, hk⟩ := List.mem_filterMap.mp h
  exact lookupLast_mem hk

theorem jsMapValues_length_le {α : Type} (key : α → String) (l : List α) :
    (jsMapValues key l).length ≤ l.length := by
  calc (jsMapValues key l).length
      ≤ (dedupFirst (l.map key)).length := List.length_filterMap_le _ _
    _ ≤ (l.map key).length := length_dedupFirst_le _
    _ = l.length := List.length_map _ _

theorem jsMapValues_keys_nodup {α : Type} (key : α → String) (l : List α) :
    ((jsMapValues key l).map key).Nodup := by
  have hsub : ((jsMapValues key l).map key).Sublist (dedupFirst (l.map key)) := by
    have := List.Sublist.refl (jsMapValues key l)
    -- every element of the filterMap has key equal to the originating key
    unfold jsMapValues
    induction dedupFirst (l.map key) with
    | nil => simp
    | cons k ks ih =>
      by_cases hk : (lookupLast key l k).isSome
      · obtain ⟨d, hd⟩ := Option.isSome_iff_exists.mp hk
        simp only [List.filterMap_cons, hd, List.map_cons]
        rw [lookupLast_key hd]
        exact ih.cons₂ k
      · have : lookupLast key l k = none := Option.not_isSome_iff_eq_none.mp hk
        simp only [List.filterMap_cons, this]
        exact ih.cons k
  exact hsub.nodup (nodup_dedupFirst _)

theorem insertBy_perm {α : Type} (lt : α → α → Bool) (x : α) :
    ∀ l : List α, (insertBy lt x l).Perm (x :: l) := by
  intro l
  induction l with
  | nil => simp [insertBy]
  | cons y ys ih =>
    by_cases h : lt x y
    · simp [insertBy, h]
    · simp only [insertBy, if_neg h]
      exact (ih.cons y).trans (List.Perm.swap x y ys)

theorem stableSortBy_fold_perm {α : Type} (lt : α → α → Bool) :
    ∀ (l acc : List α), (l.foldl (fun acc x => insertBy lt x acc) acc).Perm (acc ++ l) := by
  intro l
  induction l with
  | nil => intro acc; simp
  | cons x xs ih =>
    intro acc
    have h1 := ih (insertBy lt x acc)
    have h2 : (insertBy lt x acc ++ xs).Perm ((x :: acc) ++ xs) :=
      (insertBy_perm lt x acc).append_right xs
    have h3 : ((x :: acc) ++ xs).Perm (acc ++ x :: xs) := by
      simpa using List.perm_middle.symm
    simpa using (h1.trans h2).trans h3

theorem stableSortBy_perm {α : Type} (lt : α → α → Bool) (l : List α) :
    (stableSortBy lt l).Perm l := by
  simpa using stableSortBy_fold_perm lt l []

theorem mem_stableSortBy {α : Type} {lt : α → α → Bool} {l : List α} {x : α} :
    x ∈ stableSortBy lt l ↔ x ∈ l := (stableSortBy_perm lt l).mem_iff

theorem length_stableSortBy {α : Type} (lt : α → α → Bool) (l : List α) :
    (stableSortBy lt l).length = l.length := (stableSortBy_perm lt l).length_eq

theorem nodup_stableSortBy {α : Type} {lt : α → α → Bool} {l : List α}
    (h : l.Nodup) : (stableSortBy lt l).Nodup := (stableSortBy_perm lt l).nodup_iff.mpr h

theorem mem_insertBy {α : Type} {lt : α → α → Bool} {x z : α} {l : List α}
    (h : z ∈ insertBy lt x l) : z = x ∨ z ∈ l := by
  have := (insertBy_perm lt x l).mem_iff.mp h
  simpa using this

/-- Inserting into a list sorted for a transitive, irreflexive strict order
keeps it sorted (sortedness: no later element strictly precedes an earlier). -/
theorem insertBy_pairwise {α : Type} {lt : α → α → Bool}
    (htrans : ∀ a b c, lt a b = true → lt b c = true → lt a c = true)
    (hirr : ∀ a, lt a a = false) {x : α} {l : List α}
    (hl : l.Pairwise (fun a b => lt b a = false)) :
    (insertBy lt x l).Pairwise (fun a b => lt b a = false) := by
  induction l with
  | nil => simp [insertBy]
  | cons y ys ih =>
    rcases List.pairwise_cons.mp hl with ⟨hy, hys⟩
    by_cases h : lt x y
    · simp only [insertBy, if_pos h, List.pairwise_cons]
      refine ⟨?_, hy, hys⟩
      intro z hz
      rcases List.mem_cons.mp hz with hzy | hzys
      · subst hzy
        by_cases hzx : lt z x
        · have hzz := htrans z x z hzx h
          rw [hirr z] at hzz
          cases hzz
        · simpa using hzx
      · by_cases hzx : lt z x
        · have hzy2 := htrans z x y hzx h
          rw [hy z hzys] at hzy2
          cases hzy2
        · simpa using hzx
    · simp only [insertBy, if_neg h, List.pairwise_cons]
      constructor
      · intro z hz
        rcases mem_insertBy hz with hzx | hzys
        · subst hzx
          simpa using h
        · exact hy z hzys
      · exact ih hys

theorem stableSortBy_pairwise {α : Type} {lt : α → α → Bool}
    (htrans : ∀ a b c, lt a b = true → lt b c = true → lt a c = true)
    (hirr : ∀ a, lt a a = false) (l : List α) :
    (stableSortBy lt l).Pairwise (fun a b => lt b a = false) := by
  have key : ∀ (l acc : List α), acc.Pairwise (fun a b => lt b a = false) →
      (l.foldl (fun acc x => insertBy lt x acc) acc).Pairwise (fun a b => lt b a = false) := by
    intro l
    induction l with
    | nil => intro acc h; simpa using h
    | cons x xs ih =>
      intro acc h
      exact ih (insertBy lt x acc) (insertBy_pairwise htrans hirr h)
  simpa [stableSortBy] using key l [] (by simp)

theorem normalizeProduct_id (p : Product) : (normalizeProduct p).id = p.id := rfl

/-! ## Properties of the dedupe-and-cap loops -/

theorem collectCandidates_sublist (limit : Nat) :
    ∀ (l : List Product) (seen : List String) (count : Nat),
      (collectCandidates limit l seen count).Sublist l := by
  intro l
  induction l with
  | nil => intro seen count; simp [collectCandidates]
  | cons c cs ih =>
    intro seen count
    by_cases h1 : idStr c.id ∈ seen
    · simpa [collectCandidates, h1] using (ih seen count).cons c
    · by_cases h2 : limit ≤ count + 1
      · simp [collectCandidates, h1, h2]
      · simpa [collectCandidates, h1, h2] using
          (ih (idStr c.id :: seen) (count + 1)).cons₂ c

theorem mem_collectCandidates {limit : Nat} {l : List Product} {seen : List String}
    {count : Nat} {c : Product} (h : c ∈ collectCandidates limit l seen count) :
    c ∈ l := (collectCandidates_sublist limit l seen count).mem h

theorem collectCandidates_spec (limit : Nat) :
    ∀ (l : List Product) (seen : List String) (count : Nat),
      ((collectCandidates limit l seen count).map (fun c => idStr c.id)).Nodup ∧
      ∀ c ∈ collectCandidates limit l seen count, idStr c.id ∉ seen := by
  intro l
  induction l with
  | nil => intro seen count; simp [collectCandidates]
  | cons c cs ih =>
    intro seen count
    by_cases h1 : idStr c.id ∈ seen
    · simpa [collectCandidates, h1] using ih seen count
    · by_cases h2 : limit ≤ count + 1
      · refine ⟨by simp [collectCandidates, h1, h2], ?_⟩
        intro x hx
        simp only [collectCandidates, if_neg h1, if_pos h2, List.mem_singleton] at hx
        subst hx
        exact h1
      · obtain ⟨ihnodup, ihseen⟩ := ih (idStr c.id :: seen) (count + 1)
        simp only [collectCandidates, if_neg h1, if_neg h2, List.map_cons,
          List.nodup_cons, List.mem_cons]
        refine ⟨⟨?_, ihnodup⟩, ?_⟩
        · intro hmem
          obtain ⟨x, hx, hkey⟩ := List.mem_map.mp hmem
          have := ihseen x hx
          exact this (by rw [hkey]; exact List.mem_cons_self _ _)
        · rintro x (hx | hx)
          · subst hx; exact h1
          · have := ihseen x hx
            exact fun hmem => this (List.mem_cons_of_mem _ hmem)

theorem collectCandidates_length (limit : Nat) :
    ∀ (l : List Product) (seen : List String) (count : Nat), count < limit →
      (collectCandidates limit l seen count).length ≤ limit - count := by
  intro l
  induction l with
  | nil => intro seen count h; simp [collectCandidates]
  | cons c cs ih =>
    intro seen count h
    by_cases h1 : idStr c.id ∈ seen
    · simpa [collectCandidates, h1] using ih seen count h
    · by_cases h2 : limit ≤ count + 1
      · simp only [collectCandidates, if_neg h1, if_pos h2, List.length_singleton]
        omega
      · have hlt : count + 1 < limit := by omega
        have := ih (idStr c.id :: seen) (count + 1) hlt
        simp only [collectCandidates, if_neg h1, if_neg h2, List.length_cons]
        omega

theorem collectCandidates_ne_nil (limit : Nat) (c : Product) (cs : List Product) :
    collectCandidates limit (c :: cs) [] 0 ≠ [] := by
  by_cases h : limit ≤ 0 + 1 <;> simp [collectCandidates, h]

theorem collectMatchIds_spec (limit : Nat) :
    ∀ (ms : List VectorMatch) (seen : List String) (count : Nat),
      (collectMatchIds limit ms seen count).Nodup ∧
      ∀ s ∈ collectMatchIds limit ms seen count, s ∉ seen := by
  intro ms
  induction ms with
  | nil => intro seen count; simp [collectMatchIds]
  | cons m ms ih =>
    intro seen count
    cases hid : getVectorProductId m with
    | none => simpa [collectMatchIds, hid] using ih seen count
    | some pid =>
      by_cases h1 : pid ∈ seen
      · simpa [collectMatchIds, hid, h1] using ih seen count
      · by_cases h2 : limit ≤ count + 1
        · refine ⟨by simp [collectMatchIds, hid, h1, h2], ?_⟩
          intro x hx
          simp only [collectMatchIds, hid, if_neg h1, if_pos h2, List.mem_singleton] at hx
          subst hx
          exact h1
        · obtain ⟨ihnodup, ihseen⟩ := ih (pid :: seen) (count + 1)
          simp only [collectMatchIds, hid, if_neg h1, if_neg h2, List.nodup_cons,
            List.mem_cons]
          refine ⟨⟨?_, ihnodup⟩, ?_⟩
          · intro hmem
            exact (ihseen pid hmem) (List.mem_cons_self _ _)
          · rintro x (hx | hx)
            · subst hx; exact h1
            · exact fun hmem => (ihseen x hx) (List.mem_cons_of_mem _ hmem)

theorem collectMatchIds_length (limit : Nat) :
    ∀ (ms : List VectorMatch) (seen : List String) (count : Nat), count < limit →
      (collectMatchIds limit ms seen count).length ≤ limit - count := by
  intro ms
  induction ms with
  | nil => intro seen count h; simp [collectMatchIds]
  | cons m ms ih =>
    intro seen count h
    cases hid : getVectorProductId m with
    | none => simpa [collectMatchIds, hid] using ih seen count h
    | some pid =>
      by_cases h1 : pid ∈ seen
      · simpa [collectMatchIds, hid, h1] using ih seen count h
      · by_cases h2 : limit ≤ count + 1
        · simp only [collectMatchIds, hid, if_neg h1, if_pos h2, List.length_singleton]
          omega
        · have hlt : count + 1 < limit := by omega
          have := ih (pid :: seen) (count + 1) hlt
          simp only [collectMatchIds, hid, if_neg h1, if_neg h2, List.length_cons]
          omega

theorem collectGroupMatchIds_spec (limit : Nat) (exclude : List String) :
    ∀ (ms : List VectorMatch) (seen : List String) (count : Nat),
      (collectGroupMatchIds limit exclude ms seen count).Nodup ∧
      ∀ s ∈ collectGroupMatchIds limit exclude ms seen count, s ∉ exclude ∧ s ∉ seen := by
  intro ms
  induction ms with
  | nil => intro seen count; simp [collectGroupMatchIds]
  | cons m ms ih =>
    intro seen count
    cases hid : getVectorProductId m with
    | none => simpa [collectGroupMatchIds, hid] using ih seen count
    | some pid =>
      by_cases h1 : pid ∈ exclude ∨ pid ∈ seen
      · simpa [collectGroupMatchIds, hid, h1] using ih seen count
      · push_neg at h1
        by_cases h2 : limit ≤ count + 1
        · refine ⟨by simp [collectGroupMatchIds, hid, h1, h2], ?_⟩
          intro x hx
          have hcond : ¬(pid ∈ exclude ∨ pid ∈ seen) := by
            push_neg; exact h1
          simp only [collectGroupMatchIds, hid, if_neg hcond, if_pos h2,
            List.mem_singleton] at hx
          subst hx
          exact h1
        · obtain ⟨ihnodup, ihseen⟩ := ih (pid :: seen) (count + 1)
          have hcond : ¬(pid ∈ exclude ∨ pid ∈ seen) := by
            push_neg; exact h1
          simp only [collectGroupMatchIds, hid, if_neg hcond, if_neg h2,
            List.nodup_cons, List.mem_cons]
          refine ⟨⟨?_, ihnodup⟩, ?_⟩
          · intro hmem
            exact (ihseen pid hmem).2 (List.mem_cons_self _ _)
          · rintro x (hx | hx)
            · subst hx; exact h1
            · obtain ⟨hex, hsn⟩ := ihseen x hx
              exact ⟨hex, fun hmem => hsn (List.mem_cons_of_mem _ hmem)⟩

theorem collectGroupMatchIds_length (limit : Nat) (exclude : List String) :
    ∀ (ms : List VectorMatch) (seen : List String) (count : Nat), count < limit →
      (collectGroupMatchIds limit exclude ms seen count).length ≤ limit - count := by
  intro ms
  induction ms with
  | nil => intro seen count h; simp [collectGroupMatchIds]
  | cons m ms ih =>
    intro seen count h
    cases hid : getVectorProductId m with
    | none => simpa [collectGroupMatchIds, hid] using ih seen count h
    | some pid =>
      by_cases h1 : pid ∈ exclude ∨ pid ∈ seen
      · simpa [collectGroupMatchIds, hid, h1] using ih seen count h
      · by_cases h2 : limit ≤ count + 1
        · simp only [collectGroupMatchIds, hid, if_neg h1, if_pos h2,
            List.length_singleton]
          omega
        · have hlt : count + 1 < limit := by omega
          have := ih (pid :: seen) (count + 1) hlt
          simp only [collectGroupMatchIds, hid, if_neg h1, if_neg h2, List.length_cons]
          omega

/-! ## Properties of id-keyed lookups and loads -/

theorem filterMap_lookupLast_keys_sublist {α : Type} (key : α → String)
    (docs : List α) :
    ∀ us : List String, ((us.filterMap (lookupLast key docs)).map key).Sublist us := by
  intro us
  induction us with
  | nil => simp
  | cons u us ih =>
    cases hu : lookupLast key docs u with
    | none => simpa [List.filterMap_cons, hu] using ih.cons u
    | some d =>
      simp only [List.filterMap_cons, hu, List.map_cons]
      rw [lookupLast_key hu]
      exact ih.cons₂ u

theorem load_mem_idStr {catalog : List Product} {ids : List String}
    {r : NormalizedProduct} (h : r ∈ loadNormalizedProductsByIds catalog ids) :
    idStr r.id ∈ ids := by
  simp only [loadNormalizedProductsByIds] at h
  split at h
  · simp at h
  · split at h
    · simp at h
    · simp only [List.mem_map] at h
      obtain ⟨d, hd, hnorm⟩ := h
      obtain ⟨u, hu, hlook⟩ := List.mem_filterMap.mp hd
      have hkey : idStr d.id = u := @lookupLast_key Product (fun d => idStr d.id) _ u d hlook
      have hid : r.id = d.id := by rw [← hnorm]; rfl
      have humem : u ∈ dedupFirst ids := (List.mem_filter.mp hu).1
      rw [hid, hkey]
      exact mem_dedupFirst.mp humem

theorem load_ids_nodup (catalog : List Product) (ids : List String) :
    ((loadNormalizedProductsByIds catalog ids).map NormalizedProduct.id).Nodup := by
  simp only [loadNormalizedProductsByIds]
  split
  · simp
  · split
    · simp
    · set us := (dedupFirst ids).filter (fun s => !s.data.isEmpty) with hus
      set docs := catalog.filter
        (fun d => decide (d.id ∈ us.filterMap parseNat?)) with hdocs
      have hkeys : ((us.filterMap (lookupLast (fun d => idStr d.id) docs)).map
          (fun d => idStr d.id)).Nodup := by
        have hsub := filterMap_lookupLast_keys_sublist (fun d => idStr d.id) docs us
        have husnodup : us.Nodup := (nodup_dedupFirst ids).filter _
        exact hsub.nodup husnodup
      have hids : ((us.filterMap (lookupLast (fun d => idStr d.id) docs)).map
          Product.id).Nodup := by
        have heq : ((us.filterMap (lookupLast (fun d => idStr d.id) docs)).map
            (fun d => idStr d.id)) = ((us.filterMap (lookupLast (fun d => idStr d.id)
              docs)).map Product.id).map idStr := by
          simp [List.map_map, Function.comp]
        rw [heq] at hkeys
        exact hkeys.of_map idStr
      have heq2 : ((us.filterMap (lookupLast (fun d => idStr d.id) docs)).map
          normalizeProduct).map NormalizedProduct.id
            = (us.filterMap (lookupLast (fun d => idStr d.id) docs)).map Product.id := by
        simp [List.map_map, Function.comp, normalizeProduct_id]
      rw [heq2]
      exact hids

theorem load_length_le (catalog : List Product) (ids : List String) :
    (loadNormalizedProductsByIds catalog ids).length ≤ ids.length := by
  simp only [loadNormalizedProductsByIds]
  split
  · simp
  · split
    · simp
    · rw [List.length_map]
      refine le_trans (List.length_filterMap_le _ _)
        (le_trans (List.length_filter_le _ _) (length_dedupFirst_le ids))

/-! ## Properties of where clauses and the candidate pool -/

theorem matchesWhere_notIn {w : WhereClause} {p : Product}
    (h : matchesWhere w p = true) : p.id ∉ w.notIn := by
  simp only [matchesWhere, Bool.and_eq_true, decide_eq_true_eq] at h
  exact h.1

theorem matchesWhere_excludes {ex : List String} {f : Option CategoryWhere}
    {p : Product} (h : matchesWhere (buildWhereClause ex f) p = true) :
    idStr p.id ∉ ex := by
  intro hmem
  have hnot : p.id ∉ (buildWhereClause ex f).notIn := matchesWhere_notIn h
  exact hnot (List.mem_filterMap.mpr ⟨idStr p.id, hmem, parseNat?_idStr p.id⟩)

theorem findManyTake_subset {catalog : List Product} {w : WhereClause} {n : Nat}
    {p : Product} (h : p ∈ findManyTake catalog w n) : p ∈ catalog := by
  have := List.mem_of_mem_take h
  exact List.mem_of_mem_filter this

theorem findManyTake_matches {catalog : List Product} {w : WhereClause} {n : Nat}
    {p : Product} (h : p ∈ findManyTake catalog w n) : matchesWhere w p = true := by
  have := List.mem_of_mem_take h
  exact List.of_mem_filter this

theorem findManyTake_sublist (catalog : List Product) (w : WhereClause) (n : Nat) :
    (findManyTake catalog w n).Sublist catalog :=
  (List.take_sublist _ _).trans (List.filter_sublist _)

theorem findManyTake_length (catalog : List Product) (w : WhereClause) (n : Nat) :
    (findManyTake catalog w n).length ≤ n := by
  unfold findManyTake
  exact List.length_take_le _ _

theorem buildCandidatePool_subset {catalog : List Product} {ex : List String}
    {f : Option CategoryWhere} {p : Product}
    (h : p ∈ buildCandidatePool catalog ex f) : p ∈ catalog := by
  simp only [buildCandidatePool] at h
  split at h
  · exact findManyTake_subset h
  · have hmem := jsMapValues_mem h
    rcases List.mem_append.mp hmem with h1 | h1
    · exact findManyTake_subset h1
    · exact findManyTake_subset h1

theorem buildCandidatePool_excludes {catalog : List Product} {ex : List String}
    {f : Option CategoryWhere} {p : Product}
    (h : p ∈ buildCandidatePool catalog ex f) : idStr p.id ∉ ex := by
  simp only [buildCandidatePool] at h
  split at h
  · exact matchesWhere_excludes (findManyTake_matches h)
  · have hmem := jsMapValues_mem h
    rcases List.mem_append.mp hmem with h1 | h1
    · exact matchesWhere_excludes (findManyTake_matches h1)
    · have := matchesWhere_excludes (findManyTake_matches h1)
      intro hmem2
      exact this (List.mem_append.mpr (Or.inl hmem2))

theorem buildCandidatePool_ids_nodup {catalog : List Product} {ex : List String}
    {f : Option CategoryWhere} (hcat : (catalog.map Product.id).Nodup) :
    ((buildCandidatePool catalog ex f).map Product.id).Nodup := by
  simp only [buildCandidatePool]
  split
  · exact ((findManyTake_sublist catalog _ _).map Product.id).nodup hcat
  · set both := (findManyTake catalog (buildWhereClause ex f) FALLBACK_POOL_LIMIT) ++
      (findManyTake catalog (buildWhereClause (ex ++ (findManyTake catalog
        (buildWhereClause ex f) FALLBACK_POOL_LIMIT).map (fun d => idStr d.id)) none)
        FALLBACK_POOL_LIMIT) with hboth
    have hkeys := jsMapValues_keys_nodup (fun d => idStr d.id) both
    have heq : ((jsMapValues (fun d => idStr d.id) both).map (fun d => idStr d.id))
        = ((jsMapValues (fun d => idStr d.id) both).map Product.id).map idStr := by
      simp [List.map_map, Function.comp]
    rw [heq] at hkeys
    exact hkeys.of_map idStr

theorem buildCandidatePool_length {catalog : List Product} {ex : List String}
    {f : Option CategoryWhere} :
    (buildCandidatePool catalog ex f).length ≤ FALLBACK_POOL_LIMIT + 4 := by
  simp only [buildCandidatePool]
  split
  · have := findManyTake_length catalog (buildWhereClause ex f) FALLBACK_POOL_LIMIT
    omega
  · rename_i hcond
    have hthin : (findManyTake catalog (buildWhereClause ex f)
        FALLBACK_POOL_LIMIT).length ≤ 4 := by
      rcases Bool.or_eq_false_iff.mp (Bool.eq_false_iff.mpr hcond) with ⟨_, h5⟩
      have := of_decide_eq_false h5
      omega
    have hsupp := findManyTake_length catalog (buildWhereClause (ex ++ (findManyTake
      catalog (buildWhereClause ex f) FALLBACK_POOL_LIMIT).map (fun d => idStr d.id))
      none) FALLBACK_POOL_LIMIT
    have hle := jsMapValues_length_le (fun d => idStr d.id)
      ((findManyTake catalog (buildWhereClause ex f) FALLBACK_POOL_LIMIT) ++
        (findManyTake catalog (buildWhereClause (ex ++ (findManyTake catalog
          (buildWhereClause ex f) FALLBACK_POOL_LIMIT).map (fun d => idStr d.id)) none)
          FALLBACK_POOL_LIMIT))
    rw [List.length_append] at hle
    omega

theorem buildCandidatePool_length_of_falsy {catalog : List Product}
    {ex : List String} {f : Option CategoryWhere}
    (hf : filterCategoryFalsy f = true) :
    (buildCandidatePool catalog ex f).length ≤ FALLBACK_POOL_LIMIT := by
  simp only [buildCandidatePool]
  rw [if_pos (by simp [hf])]
  exact findManyTake_length _ _ _

/-! ## Properties of the ranked backstop query -/

theorem findManyRanked_subset {catalog : List Product} {w : WhereClause} {n : Nat}
    {p : Product} (h : p ∈ findManyRanked catalog w n) : p ∈ catalog := by
  have h1 := List.mem_of_mem_take h
  have h2 := mem_stableSortBy.mp h1
  exact List.mem_of_mem_filter h2

theorem findManyRanked_matches {catalog : List Product} {w : WhereClause} {n : Nat}
    {p : Product} (h : p ∈ findManyRanked catalog w n) : matchesWhere w p = true := by
  have h1 := List.mem_of_mem_take h
  have h2 := mem_stableSortBy.mp h1
  exact List.of_mem_filter h2

theorem findManyRanked_length (catalog : List Product) (w : WhereClause) (n : Nat) :
    (findManyRanked catalog w n).length ≤ n := List.length_take_le _ _

theorem findManyRanked_ids_nodup {catalog : List Product} {w : WhereClause} {n : Nat}
    (hcat : (catalog.map Product.id).Nodup) :
    ((findManyRanked catalog w n).map Product.id).Nodup := by
  have hfilter : ((catalog.filter (matchesWhere w)).map Product.id).Nodup :=
    ((List.filter_sublist catalog).map Product.id).nodup hcat
  have hsort : ((stableSortBy rankLt (catalog.filter (matchesWhere w))).map
      Product.id).Nodup :=
    (((stableSortBy_perm rankLt _).map Product.id).nodup_iff).mpr hfilter
  exact ((List.take_sublist _ _).map Product.id).nodup hsort

theorem findManyRanked_ne_nil {catalog : List Product} {w : WhereClause} {n : Nat}
    (hq : ∃ q ∈ catalog, matchesWhere w q = true) (hn : 1 ≤ n) :
    findManyRanked catalog w n ≠ [] := by
  obtain ⟨q, hqmem, hqw⟩ := hq
  have hfilter : catalog.filter (matchesWhere w) ≠ [] := by
    intro hnil
    have := List.mem_filter.mpr ⟨hqmem, hqw⟩
    rw [hnil] at this
    exact List.not_mem_nil q this
  have hsort : stableSortBy rankLt (catalog.filter (matchesWhere w)) ≠ [] := by
    intro hnil
    have hp := stableSortBy_perm rankLt (catalog.filter (matchesWhere w))
    rw [hnil] at hp
    exact hfilter hp.nil_eq.symm
  intro hnil
  rcases List.take_eq_nil_iff.mp hnil with h | h
  · omega
  · exact hsort h

theorem fetchBackupProducts_subset {catalog : List Product} {ex : List String}
    {limit : Nat} {p : Product} (h : p ∈ fetchBackupProducts catalog ex limit) :
    p ∈ catalog := by
  simp only [fetchBackupProducts] at h
  split at h
  · have h1 := List.mem_of_mem_take h
    exact mem_stableSortBy.mp h1
  · exact findManyRanked_subset h

theorem fetchBackupProducts_length (catalog : List Product) (ex : List String)
    (limit : Nat) : (fetchBackupProducts catalog ex limit).length ≤ limit := by
  simp only [fetchBackupProducts]
  split
  · exact List.length_take_le _ _
  · exact findManyRanked_length _ _ _

theorem fetchBackupProducts_ids_nodup {catalog : List Product} {ex : List String}
    {limit : Nat} (hcat : (catalog.map Product.id).Nodup) :
    ((fetchBackupProducts catalog ex limit).map Product.id).Nodup := by
  simp only [fetchBackupProducts]
  split
  · have hsort : ((stableSortBy rankLt catalog).map Product.id).Nodup :=
      (((stableSortBy_perm rankLt catalog).map Product.id).nodup_iff).mpr hcat
    exact ((List.take_sublist _ _).map Product.id).nodup hsort
  · exact findManyRanked_ids_nodup hcat

theorem fetchBackupProducts_filtered {catalog : List Product} {ex : List String}
    {limit : Nat} (hq : ∃ q ∈ catalog, matchesWhere (buildWhereClause ex none) q = true)
    (hlim : 1 ≤ limit) :
    fetchBackupProducts catalog ex limit
      = findManyRanked catalog (buildWhereClause ex none) limit ∧
    fetchBackupProducts catalog ex limit ≠ [] := by
  have hne := findManyRanked_ne_nil hq hlim
  simp only [fetchBackupProducts]
  rw [if_neg (by simpa using hne)]
  exact ⟨rfl, hne⟩

theorem fetchBackupProducts_ne_nil {catalog : List Product} {ex : List String}
    {limit : Nat} (hcat : catalog ≠ []) (hlim : 1 ≤ limit) :
    fetchBackupProducts catalog ex limit ≠ [] := by
  simp only [fetchBackupProducts]
  split
  · intro hnil
    rcases List.take_eq_nil_iff.mp hnil with h | h
    · omega
    · have hp := stableSortBy_perm rankLt catalog
      rw [h] at hp
      exact hcat hp.nil_eq.symm
  · rename_i hcand
    simpa using hcand

/-! ## Soundness of the local fallbacks -/

theorem map_normalize_ids (l : List Product) :
    (l.map normalizeProduct).map NormalizedProduct.id = l.map Product.id := by
  simp [List.map_map, Function.comp, normalizeProduct_id]

theorem ids_nodup_of_idStr_nodup {l : List Product}
    (h : (l.map (fun c => idStr c.id)).Nodup) : (l.map Product.id).Nodup := by
  have heq : (l.map (fun c => idStr c.id)) = (l.map Product.id).map idStr := by
    simp [List.map_map, Function.comp]
  rw [heq] at h
  exact h.of_map idStr

theorem toNumericIds_single (n : Nat) : toNumericIds [idStr n] = [n] := by
  simp [toNumericIds, List.filterMap_cons, parseNat?_idStr]

/-- Master lemma for `fallbackSimilarProducts`: whenever the catalog has
pairwise-distinct ids and contains some product other than the base one, the
fallback returns the normalization of a list of catalog rows that all avoid
the base id, is id-distinct, nonempty, and within the limit. -/
theorem fallbackSimilarProducts_sound {catalog : List Product} {product : Product}
    {limit : Nat} (hlim : 1 ≤ limit) (hcat : (catalog.map Product.id).Nodup)
    (hother : ∃ q ∈ catalog, q.id ≠ product.id) :
    ∃ raws : List Product,
      fallbackSimilarProducts catalog product limit = raws.map normalizeProduct ∧
      (∀ p' ∈ raws, p'.id ≠ product.id) ∧
      raws.length ≤ limit ∧
      (raws.map Product.id).Nodup ∧
      raws ≠ [] := by
  have hq : ∃ q ∈ catalog,
      matchesWhere (buildWhereClause [idStr product.id] none) q = true := by
    obtain ⟨q, hqmem, hqid⟩ := hother
    refine ⟨q, hqmem, ?_⟩
    simp only [matchesWhere, buildWhereClause, toNumericIds_single,
      Bool.and_eq_true, decide_eq_true_eq]
    exact ⟨by simpa using fun h => hqid h, trivial⟩
  have hexcl : ∀ p' : Product, idStr p'.id ∉ [idStr product.id] → p'.id ≠ product.id := by
    intro p' hmem heq
    exact hmem (by simp [heq])
  simp only [fallbackSimilarProducts]
  by_cases hpool : (buildCandidatePool catalog [idStr product.id]
      (similarFilter product)).isEmpty = true
  · -- pool is empty: the backstop query applies
    rw [if_pos hpool]
    obtain ⟨hbeq, hbne⟩ := fetchBackupProducts_filtered hq hlim
    rw [if_neg (by simpa using hbne)]
    refine ⟨fetchBackupProducts catalog [idStr product.id] limit, rfl, ?_, ?_, ?_, hbne⟩
    · intro p' hp'
      rw [hbeq] at hp'
      exact hexcl p' (matchesWhere_excludes (findManyRanked_matches hp'))
    · exact fetchBackupProducts_length _ _ _
    · exact fetchBackupProducts_ids_nodup hcat
  · -- pool is nonempty: local scoring applies
    rw [if_neg hpool]
    have hpoolne : buildCandidatePool catalog [idStr product.id]
        (similarFilter product) ≠ [] := by
      intro hnil
      exact hpool (by simp [hnil])
    have hscorne : stableSortBy (scoreLt (computeSimilarityScore product))
        (buildCandidatePool catalog [idStr product.id] (similarFilter product)) ≠ [] := by
      intro hnil
      have hp := stableSortBy_perm (scoreLt (computeSimilarityScore product))
        (buildCandidatePool catalog [idStr product.id] (similarFilter product))
      rw [hnil] at hp
      exact hpoolne hp.nil_eq.symm
    obtain ⟨c, cs, hcons⟩ := List.exists_cons_of_ne_nil hscorne
    have hresne : collectCandidates limit
        (stableSortBy (scoreLt (computeSimilarityScore product))
          (buildCandidatePool catalog [idStr product.id] (similarFilter product)))
        [] 0 ≠ [] := by
      rw [hcons]
      exact collectCandidates_ne_nil limit c cs
    rw [if_neg (by simpa using hresne)]
    refine ⟨collectCandidates limit
      (stableSortBy (scoreLt (computeSimilarityScore product))
        (buildCandidatePool catalog [idStr product.id] (similarFilter product))) [] 0,
      rfl, ?_, ?_, ?_, hresne⟩
    · intro p' hp'
      have h1 := mem_collectCandidates hp'
      have h2 := mem_stableSortBy.mp h1
      exact hexcl p' (buildCandidatePool_excludes h2)
    · have := collectCandidates_length limit
        (stableSortBy (scoreLt (computeSimilarityScore product))
          (buildCandidatePool catalog [idStr product.id] (similarFilter product))) [] 0
        (by omega)
      omega
    · exact ids_nodup_of_idStr_nodup (collectCandidates_spec limit _ [] 0).1

/-! ## Soundness of the vector-index paths -/

theorem pineconeSimilarRecommendations_sound {env : PineconeEnv}
    {catalog : List Product} {product : Product} {limit : Nat} (hlim : 1 ≤ limit)
    (hbase : baseIdOf product = idStr product.id) :
    (∀ r ∈ pineconeSimilarRecommendations env catalog product limit,
      r.id ≠ product.id) ∧
    (pineconeSimilarRecommendations env catalog product limit).length ≤ limit ∧
    ((pineconeSimilarRecommendations env catalog product limit).map
      NormalizedProduct.id).Nodup := by
  simp only [pineconeSimilarRecommendations]
  split
  · exact ⟨by simp, by simp, by simp⟩
  · split
    · exact ⟨by simp, by simp, by simp⟩
    · rename_i result heq
      clear heq
      cases result with
      | none =>
        dsimp only
        refine ⟨?_, ?_, ?_⟩
        · intro r hr
          have hmem := load_mem_idStr hr
          have hnotseen := ((collectMatchIds_spec limit [] [baseIdOf product] 0).2 _ hmem)
          intro hid
          apply hnotseen
          rw [hbase, hid]
          exact List.mem_singleton.mpr rfl
        · refine le_trans (load_length_le _ _) ?_
          have := collectMatchIds_length limit ([] : List VectorMatch)
            [baseIdOf product] 0 (by omega)
          omega
        · exact load_ids_nodup _ _
      | some qres =>
        dsimp only
        refine ⟨?_, ?_, ?_⟩
        · intro r hr
          have hmem := load_mem_idStr hr
          have hnotseen := ((collectMatchIds_spec limit qres.matchList
            [baseIdOf product] 0).2 _ hmem)
          intro hid
          apply hnotseen
          rw [hbase, hid]
          exact List.mem_singleton.mpr rfl
        · refine le_trans (load_length_le _ _) ?_
          have := collectMatchIds_length limit qres.matchList
            [baseIdOf product] 0 (by omega)
          omega
        · exact load_ids_nodup _ _

/-- Soundness of the terminal load of the group vector path, for any list of
matches the index may return. -/
theorem groupLoad_sound {catalog : List Product} {products : List Product}
    {limit : Nat} (hlim : 1 ≤ limit)
    (hbase : ∀ p ∈ products, baseIdOf p = idStr p.id) (ms : List VectorMatch) :
    (∀ r ∈ loadNormalizedProductsByIds catalog (collectGroupMatchIds limit
        ((products.map baseIdOf).filter (fun s => !s.data.isEmpty)) ms
        ((products.map baseIdOf).filter (fun s => !s.data.isEmpty)) 0),
      ∀ p ∈ products, r.id ≠ p.id) ∧
    (loadNormalizedProductsByIds catalog (collectGroupMatchIds limit
        ((products.map baseIdOf).filter (fun s => !s.data.isEmpty)) ms
        ((products.map baseIdOf).filter (fun s => !s.data.isEmpty)) 0)).length ≤ limit ∧
    ((loadNormalizedProductsByIds catalog (collectGroupMatchIds limit
        ((products.map baseIdOf).filter (fun s => !s.data.isEmpty)) ms
        ((products.map baseIdOf).filter (fun s => !s.data.isEmpty)) 0)).map
      NormalizedProduct.id).Nodup := by
  refine ⟨?_, ?_, ?_⟩
  · intro r hr p hp
    have hmem := load_mem_idStr hr
    have hspec := (collectGroupMatchIds_spec limit
      ((products.map baseIdOf).filter (fun s => !s.data.isEmpty)) ms
      ((products.map baseIdOf).filter (fun s => !s.data.isEmpty)) 0).2 _ hmem
    intro hid
    apply hspec.1
    have hpmem : idStr p.id ∈ (products.map baseIdOf).filter
        (fun s => !s.data.isEmpty) := by
      refine List.mem_filter.mpr ⟨List.mem_map.mpr ⟨p, hp, hbase p hp⟩, ?_⟩
      simpa using idStr_isEmpty_false p.id
    rw [hid]
    exact hpmem
  · refine le_trans (load_length_le _ _) ?_
    have := collectGroupMatchIds_length limit
      ((products.map baseIdOf).filter (fun s => !s.data.isEmpty)) ms
      ((products.map baseIdOf).filter (fun s => !s.data.isEmpty)) 0 (by omega)
    omega
  · exact load_ids_nodup _ _

theorem pineconeGroupRecommendations_sound {env : PineconeEnv}
    {catalog : List Product} {products : List Product} {limit : Nat} (hlim : 1 ≤ limit)
    (hbase : ∀ p ∈ products, baseIdOf p = idStr p.id) :
    (∀ r ∈ pineconeGroupRecommendations env catalog products limit,
      ∀ p ∈ products, r.id ≠ p.id) ∧
    (pineconeGroupRecommendations env catalog products limit).length ≤ limit ∧
    ((pineconeGroupRecommendations env catalog products limit).map
      NormalizedProduct.id).Nodup := by
  simp only [pineconeGroupRecommendations]
  split
  · exact ⟨by simp, by simp, by simp⟩
  · split
    · exact ⟨by simp, by simp, by simp⟩
    · split
      · split
        · exact ⟨by simp, by simp, by simp⟩
        · split
          · exact ⟨by simp, by simp, by simp⟩
          · exact groupLoad_sound hlim hbase _
      · split
        · exact ⟨by simp, by simp, by simp⟩
        · split
          · exact ⟨by simp, by simp, by simp⟩
          · exact groupLoad_sound hlim hbase _

/-! ## Score bounds -/

theorem jaccardSimilarity_nonneg (a b : List String) : 0 ≤ jaccardSimilarity a b := by
  simp only [jaccardSimilarity]
  split
  · exact le_refl 0
  · split
    · exact le_refl 0
    · positivity

theorem priceAffinity_nonneg (base candidate : Product) :
    0 ≤ priceAffinity base candidate := by
  unfold priceAffinity
  split
  · rename_i p q _ _
    have h1 : (0:ℚ) ≤ |p - q| / max p (max q 1) := by
      apply div_nonneg (abs_nonneg _)
      have : (1:ℚ) ≤ max q 1 := le_max_right q 1
      have : (1:ℚ) ≤ max p (max q 1) := le_trans this (le_max_right p _)
      linarith
    have h2 : min (|p - q| / max p (max q 1)) 1 ≤ 1 := min_le_right _ _
    linarith
  · exact le_refl 0

theorem priceAffinity_le_one (base candidate : Product) :
    priceAffinity base candidate ≤ 1 := by
  unfold priceAffinity
  split
  · rename_i p q _ _
    have h1 : (0:ℚ) ≤ |p - q| / max p (max q 1) := by
      apply div_nonneg (abs_nonneg _)
      have h : (1:ℚ) ≤ max q 1 := le_max_right q 1
      have : (1:ℚ) ≤ max p (max q 1) := le_trans h (le_max_right p _)
      linarith
    have h2 : 0 ≤ min (|p - q| / max p (max q 1)) 1 := le_min h1 (by norm_num)
    linarith
  · norm_num

theorem computeSimilarityScore_nonneg (base candidate : Product) :
    0 ≤ computeSimilarityScore base candidate := by
  unfold computeSimilarityScore
  have h1 := jaccardSimilarity_nonneg (tokenize base.name) (tokenize candidate.name)
  have h2 := jaccardSimilarity_nonneg (tokenize base.description)
    (tokenize candidate.description)
  have h3 := priceAffinity_nonneg base candidate
  split <;> split <;> linarith

/-! ## Group score as a maximum -/

theorem foldl_max_ge_init (f : Product → ℚ) :
    ∀ (l : List Product) (a : ℚ), a ≤ l.foldl (fun b x => max b (f x)) a := by
  intro l
  induction l with
  | nil => intro a; simp
  | cons x xs ih =>
    intro a
    calc a ≤ max a (f x) := le_max_left a (f x)
      _ ≤ xs.foldl (fun b x => max b (f x)) (max a (f x)) := ih (max a (f x))

theorem foldl_max_ge_mem (f : Product → ℚ) :
    ∀ (l : List Product) (a : ℚ) (p : Product), p ∈ l →
      f p ≤ l.foldl (fun b x => max b (f x)) a := by
  intro l
  induction l with
  | nil => intro a p hp; simp at hp
  | cons x xs ih =>
    intro a p hp
    rcases List.mem_cons.mp hp with hpx | hpxs
    · subst hpx
      calc f p ≤ max a (f p) := le_max_right a (f p)
        _ ≤ xs.foldl (fun b x => max b (f x)) (max a (f p)) := foldl_max_ge_init f xs _
    · exact ih (max a (f x)) p hpxs

theorem foldl_max_attained (f : Product → ℚ) :
    ∀ (l : List Product) (a : ℚ),
      l.foldl (fun b x => max b (f x)) a = a ∨
      ∃ p ∈ l, l.foldl (fun b x => max b (f x)) a = f p := by
  intro l
  induction l with
  | nil => intro a; exact Or.inl rfl
  | cons x xs ih =>
    intro a
    rcases ih (max a (f x)) with h | ⟨p, hp, hval⟩
    · by_cases hax : f x ≤ a
      · left
        simpa [max_eq_left hax] using h
      · right
        refine ⟨x, List.mem_cons_self _ _, ?_⟩
        rw [List.foldl_cons, h]
        exact max_eq_right (le_of_not_le hax)
    · right
      exact ⟨p, List.mem_cons_of_mem _ hp, hval⟩

theorem groupScore_ge {products : List Product} {c p : Product} (hp : p ∈ products) :
    computeSimilarityScore p c ≤ groupScore products c :=
  foldl_max_ge_mem (fun base => computeSimilarityScore base c) products 0 p hp

theorem groupScore_attained {products : List Product} (c : Product)
    (hne : products ≠ []) :
    ∃ p ∈ products, groupScore products c = computeSimilarityScore p c := by
  rcases foldl_max_attained (fun base => computeSimilarityScore base c) products 0
    with h | ⟨p, hp, hval⟩
  · obtain ⟨p0, hp0⟩ := List.exists_mem_of_ne_nil products hne
    have hle := groupScore_ge (c := c) hp0
    have hnn := computeSimilarityScore_nonneg p0 c
    unfold groupScore at *
    refine ⟨p0, hp0, ?_⟩
    rw [h] at hle ⊢
    linarith
  · exact ⟨p, hp, hval⟩

/-! ## Soundness of the group fallback -/

theorem scoreLt_trans (score : Product → ℚ) : ∀ a b c,
    scoreLt score a b = true → scoreLt score b c = true → scoreLt score a c = true := by
  intro a b c hab hbc
  simp only [scoreLt, decide_eq_true_eq] at *
  linarith

theorem scoreLt_irrefl (score : Product → ℚ) : ∀ a, scoreLt score a a = false := by
  intro a
  simp [scoreLt]

theorem toNumericIds_map_idStr (l : List Product) :
    toNumericIds (l.map (fun p => idStr p.id)) = l.map Product.id := by
  induction l with
  | nil => rfl
  | cons p ps ih =>
    simp only [List.map_cons, toNumericIds, List.filterMap_cons, parseNat?_idStr]
    simp only [toNumericIds] at ih
    rw [ih]

theorem ne_nil_isEmpty_ne {α : Type} {l : List α} (h : l ≠ []) :
    ¬ (l.isEmpty = true) := by
  cases l with
  | nil => exact absurd rfl h
  | cons a as => simp

set_option maxHeartbeats 2000000 in
/-- Master lemma for `fallbackRecommendationsForGroup`, mirroring
`fallbackSimilarProducts_sound`. -/
theorem fallbackRecommendationsForGroup_sound {catalog : List Product}
    {products : List Product} {limit : Nat} (hlim : 1 ≤ limit)
    (hcat : (catalog.map Product.id).Nodup)
    (hother : ∃ q ∈ catalog, ∀ p ∈ products, q.id ≠ p.id) :
    ∃ raws : List Product,
      fallbackRecommendationsForGroup catalog products limit
        = raws.map normalizeProduct ∧
      (∀ p' ∈ raws, ∀ p ∈ products, p'.id ≠ p.id) ∧
      raws.length ≤ limit ∧
      (raws.map Product.id).Nodup ∧
      raws ≠ [] := by
  have hq : ∃ q ∈ catalog,
      matchesWhere (buildWhereClause (products.map (fun p => idStr p.id)) none) q
        = true := by
    obtain ⟨q, hqmem, hqid⟩ := hother
    refine ⟨q, hqmem, ?_⟩
    simp only [matchesWhere, buildWhereClause, toNumericIds_map_idStr,
      Bool.and_eq_true, decide_eq_true_eq]
    refine ⟨fun hmem => ?_, trivial⟩
    obtain ⟨p, hp, hpid⟩ := List.mem_map.mp hmem
    exact hqid p hp hpid.symm
  have hexcl : ∀ p' : Product,
      idStr p'.id ∉ products.map (fun p => idStr p.id) →
        ∀ p ∈ products, p'.id ≠ p.id := by
    intro p' hmem p hp heq
    exact hmem (List.mem_map.mpr ⟨p, hp, by rw [heq]⟩)
  simp only [fallbackRecommendationsForGroup]
  set pool := buildCandidatePool catalog (products.map (fun p => idStr p.id))
    (groupFilter products) with hpooldef
  by_cases hpool : pool.isEmpty = true
  · rw [if_pos hpool]
    obtain ⟨hbeq, hbne⟩ := fetchBackupProducts_filtered hq hlim
    rw [if_neg (ne_nil_isEmpty_ne hbne)]
    refine ⟨fetchBackupProducts catalog (products.map (fun p => idStr p.id)) limit,
      rfl, ?_, ?_, ?_, hbne⟩
    · intro p' hp'
      rw [hbeq] at hp'
      exact hexcl p' (matchesWhere_excludes (findManyRanked_matches hp'))
    · exact fetchBackupProducts_length _ _ _
    · exact fetchBackupProducts_ids_nodup hcat
  · rw [if_neg hpool]
    have hpoolne : pool ≠ [] := by
      intro hnil
      rw [hnil] at hpool
      exact hpool rfl
    set scored := stableSortBy (scoreLt (groupScore products)) pool with hscdef
    have hscorne : scored ≠ [] := by
      intro hnil
      have hp := stableSortBy_perm (scoreLt (groupScore products)) pool
      rw [hscdef] at hnil
      rw [hnil] at hp
      exact hpoolne hp.nil_eq.symm
    obtain ⟨c, cs, hcons⟩ := List.exists_cons_of_ne_nil hscorne
    set results := collectCandidates limit scored [] 0 with hresdef
    have hresne : results ≠ [] := by
      rw [hresdef, hcons]
      exact collectCandidates_ne_nil limit c cs
    rw [if_neg (ne_nil_isEmpty_ne hresne)]
    refine ⟨results, rfl, ?_, ?_, ?_, hresne⟩
    · intro p' hp'
      rw [hresdef] at hp'
      have h1 := mem_collectCandidates hp'
      rw [hscdef] at h1
      have h2 := mem_stableSortBy.mp h1
      rw [hpooldef] at h2
      exact hexcl p' (buildCandidatePool_excludes h2)
    · rw [hresdef]
      have := collectCandidates_length limit scored [] 0 (by omega)
      omega
    · rw [hresdef]
      exact ids_nodup_of_idStr_nodup (collectCandidates_spec limit _ [] 0).1

/-- Structure of the live local-scoring branch of the group fallback: the
returned rows come from the candidate pool, are ranked by descending best
score against the input products, are id-distinct and within the limit. -/
theorem fallbackRecommendationsForGroup_ranked {catalog : List Product}
    {products : List Product} {limit : Nat} (hlim : 1 ≤ limit)
    (hpoolne : buildCandidatePool catalog (products.map (fun p => idStr p.id))
      (groupFilter products) ≠ []) :
    ∃ raws : List Product,
      fallbackRecommendationsForGroup catalog products limit
        = raws.map normalizeProduct ∧
      raws.Pairwise (fun a b => groupScore products b ≤ groupScore products a) ∧
      (∀ c ∈ raws, c ∈ buildCandidatePool catalog
        (products.map (fun p => idStr p.id)) (groupFilter products)) ∧
      raws.length ≤ limit ∧
      (raws.map Product.id).Nodup ∧
      raws ≠ [] := by
  simp only [fallbackRecommendationsForGroup]
  set pool := buildCandidatePool catalog (products.map (fun p => idStr p.id))
    (groupFilter products) with hpooldef
  rw [if_neg (ne_nil_isEmpty_ne hpoolne)]
  set scored := stableSortBy (scoreLt (groupScore products)) pool with hscdef
  have hscorne : scored ≠ [] := by
    intro hnil
    have hp := stableSortBy_perm (scoreLt (groupScore products)) pool
    rw [hscdef] at hnil
    rw [hnil] at hp
    exact hpoolne hp.nil_eq.symm
  obtain ⟨c, cs, hcons⟩ := List.exists_cons_of_ne_nil hscorne
  set results := collectCandidates limit scored [] 0 with hresdef
  have hresne : results ≠ [] := by
    rw [hresdef, hcons]
    exact collectCandidates_ne_nil limit c cs
  rw [if_neg (ne_nil_isEmpty_ne hresne)]
  refine ⟨results, rfl, ?_, ?_, ?_, ?_, hresne⟩
  · have hsorted := stableSortBy_pairwise (scoreLt_trans (groupScore products))
      (scoreLt_irrefl (groupScore products)) pool
    have hsub : results.Sublist scored := by
      rw [hresdef]
      exact collectCandidates_sublist limit scored [] 0
    rw [hscdef] at hsub
    have hpw := hsorted.sublist hsub
    refine hpw.imp ?_
    intro a b hab
    simp only [scoreLt, decide_eq_false_iff_not, not_lt] at hab
    exact hab
  · intro c' hc'
    rw [hresdef] at hc'
    have h1 := mem_collectCandidates hc'
    rw [hscdef] at h1
    exact mem_stableSortBy.mp h1
  · rw [hresdef]
    have := collectCandidates_length limit scored [] 0 (by omega)
    omega
  · rw [hresdef]
    exact ids_nodup_of_idStr_nodup (collectCandidates_spec limit _ [] 0).1

/-! ## Soundness of the composed orchestrator operations -/

theorem isEmpty_false_ne_nil {α : Type} {l : List α} (h : ¬ (l.isEmpty = true)) :
    l ≠ [] := by
  intro hnil
  rw [hnil] at h
  exact h rfl

theorem fallbackSimilarProducts_ne_nil (catalog : List Product) (product : Product)
    (limit : Nat) : fallbackSimilarProducts catalog product limit ≠ [] := by
  simp only [fallbackSimilarProducts]
  split
  · split
    · simp
    · rename_i hb
      have := isEmpty_false_ne_nil hb
      simp [this]
  · split
    · split
      · simp
      · rename_i hb
        have := isEmpty_false_ne_nil hb
        simp [this]
    · rename_i hr
      have := isEmpty_false_ne_nil hr
      simp [this]

theorem recommendSimilar_sound {env : PineconeEnv} {catalog : List Product}
    {product : Product} {limit : Nat} (hlim : 1 ≤ limit)
    (hcat : (catalog.map Product.id).Nodup)
    (hbase : baseIdOf product = idStr product.id)
    (hother : ∃ q ∈ catalog, q.id ≠ product.id) :
    (∀ r ∈ recommendSimilar env catalog product limit, r.id ≠ product.id) ∧
    (recommendSimilar env catalog product limit).length ≤ limit ∧
    ((recommendSimilar env catalog product limit).map NormalizedProduct.id).Nodup ∧
    recommendSimilar env catalog product limit ≠ [] := by
  simp only [recommendSimilar]
  split
  · obtain ⟨raws, heq, hexcl, hlen, hnodup, hne⟩ :=
      fallbackSimilarProducts_sound hlim hcat hother
    rw [heq]
    refine ⟨?_, ?_, ?_, ?_⟩
    · intro r hr
      obtain ⟨p', hp', hnorm⟩ := List.mem_map.mp hr
      have : r.id = p'.id := by rw [← hnorm]; rfl
      rw [this]
      exact hexcl p' hp'
    · simpa using hlen
    · rw [map_normalize_ids]
      exact hnodup
    · simpa using hne
  · rename_i hne
    obtain ⟨hexcl, hlen, hnodup⟩ := pineconeSimilarRecommendations_sound hlim hbase
    exact ⟨hexcl, hlen, hnodup, isEmpty_false_ne_nil hne⟩

theorem recommendForGroup_sound {env : PineconeEnv} {catalog : List Product}
    {products : List Product} {limit : Nat} (hlim : 1 ≤ limit)
    (hcat : (catalog.map Product.id).Nodup)
    (hbase : ∀ p ∈ products, baseIdOf p = idStr p.id)
    (hother : ∃ q ∈ catalog, ∀ p ∈ products, q.id ≠ p.id) :
    (∀ r ∈ recommendForGroup env catalog products limit,
      ∀ p ∈ products, r.id ≠ p.id) ∧
    (recommendForGroup env catalog products limit).length ≤ limit ∧
    ((recommendForGroup env catalog products limit).map NormalizedProduct.id).Nodup ∧
    recommendForGroup env catalog products limit ≠ [] := by
  simp only [recommendForGroup]
  split
  · obtain ⟨raws, heq, hexcl, hlen, hnodup, hne⟩ :=
      fallbackRecommendationsForGroup_sound hlim hcat hother
    rw [heq]
    refine ⟨?_, ?_, ?_, ?_⟩
    · intro r hr p hp
      obtain ⟨p', hp', hnorm⟩ := List.mem_map.mp hr
      have : r.id = p'.id := by rw [← hnorm]; rfl
      rw [this]
      exact hexcl p' hp' p hp
    · simpa using hlen
    · rw [map_normalize_ids]
      exact hnodup
    · simpa using hne
  · rename_i hne
    obtain ⟨hexcl, hlen, hnodup⟩ := pineconeGroupRecommendations_sound hlim hbase
    exact ⟨hexcl, hlen, hnodup, isEmpty_false_ne_nil hne⟩

/-! ## A fully-throwing vector index -/

theorem pineconeSimilar_throwing {env : PineconeEnv} {catalog : List Product}
    {product : Product} {limit : Nat}
    (hq : ∀ retry id k, env.queryById retry id k = Except.error ())
    (hsync : ∀ p, env.ensureSynced p = Except.error ()) :
    pineconeSimilarRecommendations env catalog product limit = [] := by
  simp only [pineconeSimilarRecommendations, hq, hsync, Except.toOption]
  split
  · rfl
  · rfl

theorem recommendSimilar_throwing {env : PineconeEnv} {catalog : List Product}
    {product : Product} {limit : Nat}
    (hq : ∀ retry id k, env.queryById retry id k = Except.error ())
    (hsync : ∀ p, env.ensureSynced p = Except.error ()) :
    recommendSimilar env catalog product limit
      = fallbackSimilarProducts catalog product limit := by
  simp only [recommendSimilar, pineconeSimilar_throwing hq hsync]
  rfl

theorem dedupFirst_filter_length {la lb : List String} :
    ((dedupFirst la).filter (fun t => decide (t ∈ dedupFirst lb))).length
      = (la.toFinset ∩ lb.toFinset).card := by
  have hnodup : ((dedupFirst la).filter (fun t => decide (t ∈ dedupFirst lb))).Nodup :=
    (nodup_dedupFirst la).filter _
  rw [← List.toFinset_card_of_nodup hnodup]
  congr 1
  ext x
  simp [List.mem_filter, mem_dedupFirst, List.mem_toFinset]

theorem dedupFirst_union_length {la lb : List String} :
    (dedupFirst (dedupFirst la ++ dedupFirst lb)).length
      = (la.toFinset ∪ lb.toFinset).card := by
  rw [length_dedupFirst_eq_card]
  congr 1
  ext x
  simp [List.mem_toFinset, List.mem_append, mem_dedupFirst]

/-- The source's Jaccard computation agrees with the spec's set formula. -/
theorem jaccardSimilarity_eq_spec (la lb : List String) :
    jaccardSimilarity la lb = specJaccard la.toFinset lb.toFinset := by
  simp only [jaccardSimilarity, specJaccard]
  by_cases hla : la = []
  · subst hla
    simp
  · by_cases hlb : lb = []
    · subst hlb
      simp
    · have hlaE : la.isEmpty = false := List.isEmpty_eq_false.mpr hla
      have hlbE : lb.isEmpty = false := List.isEmpty_eq_false.mpr hlb
      rw [if_neg (by simp [hlaE, hlbE])]
      have hAne : la.toFinset ≠ ∅ := by
        obtain ⟨a, ha⟩ := List.exists_mem_of_ne_nil la hla
        intro hempty
        have := List.mem_toFinset.mpr ha
        rw [hempty] at this
        exact absurd this (Finset.not_mem_empty a)
      have hBne : lb.toFinset ≠ ∅ := by
        obtain ⟨b, hb⟩ := List.exists_mem_of_ne_nil lb hlb
        intro hempty
        have := List.mem_toFinset.mpr hb
        rw [hempty] at this
        exact absurd this (Finset.not_mem_empty b)
      have hune : dedupFirst (dedupFirst la ++ dedupFirst lb) ≠ [] := by
        obtain ⟨a, ha⟩ := List.exists_mem_of_ne_nil la hla
        intro hnil
        have hmem : a ∈ dedupFirst (dedupFirst la ++ dedupFirst lb) :=
          mem_dedupFirst.mpr (List.mem_append.mpr (Or.inl (mem_dedupFirst.mpr ha)))
        rw [hnil] at hmem
        exact List.not_mem_nil a hmem
      rw [if_neg (by simpa using hune)]
      rw [if_neg (by simp [hAne, hBne])]
      rw [dedupFirst_filter_length, dedupFirst_union_length]

/-- The source's price affinity agrees with the spec's formula on the two
price fields. -/
theorem priceAffinity_eq_spec (a b : Product) :
    priceAffinity a b = specPriceAffinity a.price b.price := by
  unfold priceAffinity specPriceAffinity
  rfl

/-- The source's composite score agrees with the spec's weighted formula. -/
theorem computeSimilarityScore_eq_spec (a b : Product) :
    computeSimilarityScore a b = specScore a b := by
  have hcat : (strTruthy a.category = true ∧ strTruthy b.category = true ∧
      a.category = b.category) ↔ specFieldEq a.category b.category = true := by
    simp [specFieldEq, Bool.and_eq_true, and_assoc]
  have hbrand : (strTruthy a.brand = true ∧ strTruthy b.brand = true ∧
      a.brand = b.brand) ↔ specFieldEq a.brand b.brand = true := by
    simp [specFieldEq, Bool.and_eq_true, and_assoc]
  unfold computeSimilarityScore specScore specTokenSet
  rw [jaccardSimilarity_eq_spec, jaccardSimilarity_eq_spec, priceAffinity_eq_spec]
  by_cases h1 : strTruthy a.category = true ∧ strTruthy b.category = true ∧
      a.category = b.category
  · rw [if_pos h1, if_pos (hcat.mp h1)]
    by_cases h2 : strTruthy a.brand = true ∧ strTruthy b.brand = true ∧
        a.brand = b.brand
    · rw [if_pos h2, if_pos (hbrand.mp h2)]
      ring
    · rw [if_neg h2, if_neg (fun hh => h2 (hbrand.mpr hh))]
      ring
  · rw [if_neg h1, if_neg (fun hh => h1 (hcat.mpr hh))]
    by_cases h2 : strTruthy a.brand = true ∧ strTruthy b.brand = true ∧
        a.brand = b.brand
    · rw [if_pos h2, if_pos (hbrand.mp h2)]
      ring
    · rw [if_neg h2, if_neg (fun hh => h2 (hbrand.mpr hh))]
      ring

theorem specJaccard_comm (A B : Finset String) : specJaccard A B = specJaccard B A := by
  unfold specJaccard
  rw [Finset.inter_comm, Finset.union_comm]
  by_cases h : A = ∅ ∨ B = ∅
  · rw [if_pos h, if_pos (Or.symm h)]
  · rw [if_neg h, if_neg (fun hh => h (Or.symm hh))]

theorem specPriceAffinity_comm (pa pb : Option ℚ) :
    specPriceAffinity pa pb = specPriceAffinity pb pa := by
  unfold specPriceAffinity
  rcases pa with _ | p <;> rcases pb with _ | q <;> dsimp only
  rw [abs_sub_comm, max_left_comm]

/-- The composite score is symmetric in its two arguments. -/
theorem computeSimilarityScore_comm (a b : Product) :
    computeSimilarityScore a b = computeSimilarityScore b a := by
  rw [computeSimilarityScore_eq_spec, computeSimilarityScore_eq_spec]
  unfold specScore
  rw [specJaccard_comm, specJaccard_comm (specTokenSet a.description),
    specPriceAffinity_comm]
  have hcat : specFieldEq a.category b.category = specFieldEq b.category a.category := by
    simp only [specFieldEq]
    by_cases h : a.category = b.category
    · rw [h, Bool.and_comm (strTruthy b.category)]
    · have h2 : (a.category == b.category) = false := by simpa using h
      have h3 : (b.category == a.category) = false := by
        simpa using fun hh => h hh.symm
      rw [h2, h3]
      simp
  have hbrand : specFieldEq a.brand b.brand = specFieldEq b.brand a.brand := by
    simp only [specFieldEq]
    by_cases h : a.brand = b.brand
    · rw [h, Bool.and_comm (strTruthy b.brand)]
    · have h2 : (a.brand == b.brand) = false := by simpa using h
      have h3 : (b.brand == a.brand) = false := by
        simpa using fun hh => h hh.symm
      rw [h2, h3]
      simp
  rw [hcat, hbrand]

theorem jaccardSimilarity_self {l : List String} (h : l ≠ []) :
    jaccardSimilarity l l = 1 := by
  rw [jaccardSimilarity_eq_spec]
  unfold specJaccard
  have hne : l.toFinset ≠ ∅ := by
    obtain ⟨a, ha⟩ := List.exists_mem_of_ne_nil l h
    intro hempty
    have := List.mem_toFinset.mpr ha
    rw [hempty] at this
    exact absurd this (Finset.not_mem_empty a)
  rw [if_neg (by simp [hne])]
  rw [Finset.inter_self, Finset.union_self]
  have hpos : 0 < l.toFinset.card :=
    Finset.card_pos.mpr (Finset.nonempty_iff_ne_empty.mpr hne)
  have : (l.toFinset.card : ℚ) ≠ 0 := by
    exact_mod_cast Nat.pos_iff_ne_zero.mp hpos
  exact div_self this

theorem priceAffinity_self {a : Product} {p : ℚ} (h : a.price = some p) :
    priceAffinity a a = 1 := by
  simp [priceAffinity, h, sub_self, abs_zero, zero_div]

/-- Maximal self-score: category and brand truthy, name and description each
yielding at least one token, numeric price. -/
theorem computeSimilarityScore_self_max {a : Product} {p : ℚ}
    (hcat : strTruthy a.category = true) (hbrand : strTruthy a.brand = true)
    (hname : tokenize a.name ≠ []) (hdesc : tokenize a.description ≠ [])
    (hprice : a.price = some p) :
    computeSimilarityScore a a = 11 := by
  unfold computeSimilarityScore
  rw [if_pos ⟨hcat, hcat, rfl⟩, if_pos ⟨hbrand, hbrand, rfl⟩,
    jaccardSimilarity_self hname, jaccardSimilarity_self hdesc,
    priceAffinity_self hprice]
  norm_num

/-! ## Properties of `advanceStatus` -/

theorem ORDER_STATUS_FLOW_length : ORDER_STATUS_FLOW.length = 11 := rfl

theorem advanceStatus_jump_le {q : ℚ} {maxJump : Nat} (_h0 : 0 ≤ q) (h1 : q < 1)
    (hm : 1 ≤ maxJump) :
    1 ≤ max 1 (Int.toNat ⌊q * ((maxJump : ℚ) + 1)⌋) ∧
    max 1 (Int.toNat ⌊q * ((maxJump : ℚ) + 1)⌋) ≤ maxJump := by
  refine ⟨le_max_left 1 _, ?_⟩
  have hmq : (0:ℚ) < (maxJump : ℚ) + 1 := by positivity
  have hlt : q * ((maxJump : ℚ) + 1) < (maxJump : ℚ) + 1 :=
    mul_lt_of_lt_one_left hmq h1
  have hfloor : ⌊q * ((maxJump : ℚ) + 1)⌋ < (maxJump : ℤ) + 1 := by
    refine Int.floor_lt.mpr ?_
    push_cast
    exact hlt
  have hle : ⌊q * ((maxJump : ℚ) + 1)⌋ ≤ (maxJump : ℤ) := by omega
  have htoNat : Int.toNat ⌊q * ((maxJump : ℚ) + 1)⌋ ≤ maxJump := by
    rcases le_or_lt ⌊q * ((maxJump : ℚ) + 1)⌋ 0 with hneg | hpos
    · have : Int.toNat ⌊q * ((maxJump : ℚ) + 1)⌋ = 0 := Int.toNat_of_nonpos hneg
      omega
    · have := Int.toNat_le.mpr hle
      omega
  exact max_le hm htoNat

/-- Full behaviour of one `advanceStatus` call under a real random draw
`q ∈ [0, 1)`: the index never decreases, advances by at most 2, never passes
the final index 10 of the eleven-step flow, the history gets exactly the
returned updates appended (one per index step), and at or past the final
status the call is a no-op returning `{advanced := false, updates := []}`. -/
theorem advanceStatus_spec (q : ℚ) (order : OrderState) (h0 : 0 ≤ q) (h1 : q < 1) :
    ORDER_STATUS_FLOW.length = 11 ∧
    order.statusIndex ≤ (advanceStatus q order).2.statusIndex ∧
    (advanceStatus q order).2.statusIndex ≤ order.statusIndex + 2 ∧
    (order.statusIndex < 10 → (advanceStatus q order).2.statusIndex ≤ 10) ∧
    (advanceStatus q order).2.statusHistory
      = order.statusHistory ++ (advanceStatus q order).1.updates ∧
    (advanceStatus q order).1.updates.length
      = (advanceStatus q order).2.statusIndex - order.statusIndex ∧
    (10 ≤ order.statusIndex →
      (advanceStatus q order).1 = { advanced := false, updates := [] } ∧
      (advanceStatus q order).2 = order) := by
  refine ⟨rfl, ?_⟩
  by_cases hfin : ORDER_STATUS_FLOW.length - 1 ≤ order.statusIndex
  · have heq : advanceStatus q order = ({ advanced := false, updates := [] }, order) := by
      unfold advanceStatus
      rw [if_pos hfin]
    rw [heq]
    dsimp only
    refine ⟨le_refl _, by omega, fun _ => by omega, by simp, by simp, fun _ => ⟨rfl, rfl⟩⟩
  · have hflow := ORDER_STATUS_FLOW_length
    have hidx : order.statusIndex < 10 := by omega
    have hmj : 1 ≤ min 2 (ORDER_STATUS_FLOW.length - 1 - order.statusIndex) := by
      omega
    obtain ⟨hj1, hj2⟩ := advanceStatus_jump_le h0 h1 hmj
    set maxJump := min 2 (ORDER_STATUS_FLOW.length - 1 - order.statusIndex) with hmjdef
    set jump := max 1 (Int.toNat ⌊q * ((maxJump : ℚ) + 1)⌋) with hjdef
    have htarget : min (order.statusIndex + jump) (ORDER_STATUS_FLOW.length - 1)
        = order.statusIndex + jump := by
      omega
    have hupdlen : ((ORDER_STATUS_FLOW.drop (order.statusIndex + 1)).take
        (min (order.statusIndex + jump) (ORDER_STATUS_FLOW.length - 1)
          - order.statusIndex)).length = jump := by
      rw [htarget, List.length_take, List.length_drop]
      omega
    have hupdne : ((ORDER_STATUS_FLOW.drop (order.statusIndex + 1)).take
        (min (order.statusIndex + jump) (ORDER_STATUS_FLOW.length - 1)
          - order.statusIndex)).isEmpty = false := by
      rcases hupd : (ORDER_STATUS_FLOW.drop (order.statusIndex + 1)).take
          (min (order.statusIndex + jump) (ORDER_STATUS_FLOW.length - 1)
            - order.statusIndex) with _ | ⟨u, us⟩
      · rw [hupd] at hupdlen
        simp at hupdlen
        omega
      · simp
    have heq : advanceStatus q order
        = ({ advanced := true,
             updates := (ORDER_STATUS_FLOW.drop (order.statusIndex + 1)).take
               (min (order.statusIndex + jump) (ORDER_STATUS_FLOW.length - 1)
                 - order.statusIndex) },
           { statusIndex := min (order.statusIndex + jump)
               (ORDER_STATUS_FLOW.length - 1)
             statusHistory := order.statusHistory ++
               (ORDER_STATUS_FLOW.drop (order.statusIndex + 1)).take
                 (min (order.statusIndex + jump) (ORDER_STATUS_FLOW.length - 1)
                   - order.statusIndex) }) := by
      unfold advanceStatus
      rw [if_neg hfin]
      simp only [← hmjdef, ← hjdef, hupdne]
      rfl
    rw [heq]
    dsimp only
    refine ⟨?_, ?_, ?_, by simp, ?_, ?_⟩
    · omega
    · omega
    · intro _
      omega
    · rw [hupdlen, htarget]
      omega
    · intro hge
      exact absurd hge (by omega)

theorem priceAffinity_none {a b : Product} (h : a.price = none ∨ b.price = none) :
    priceAffinity a b = 0 := by
  unfold priceAffinity
  cases ha : a.price with
  | none => rfl
  | some p =>
    cases hb : b.price with
    | none => rfl
    | some q =>
      rcases h with h | h
      · rw [ha] at h; cases h
      · rw [hb] at h; cases h

/-! ## Claims -/

/-- C1 (counterexample): with a catalog holding only the base product and a
vector index that returns nothing, the single-product recommendation
operation at limit 2 (≥ 1) returns the base product itself — its backstop
query drops the exclusion set when it would otherwise return nothing — so it
does not always exclude the base product's identifier. -/
theorem C1_counterexample :
    1 ≤ 2 ∧ ∃ r ∈ recommendSimilar errEnv [p1] p1 2, r.id = p1.id := by
  decide

/-- C1 (amended): for every environment, catalog with pairwise-distinct ids,
limit ≥ 1 and base product whose vector-index key is its own id (no stale
`pineconeId`), if the catalog holds at least one other product then the
single-product recommendation operation never includes the base product's
identifier, returns at most `limit` entries and the returned entries have
pairwise-distinct identifiers. -/
theorem C1_recommendSimilar_sound :
    ∀ (env : PineconeEnv) (catalog : List Product) (product : Product) (limit : Nat),
      1 ≤ limit →
      (catalog.map Product.id).Nodup →
      baseIdOf product = idStr product.id →
      (∃ q ∈ catalog, q.id ≠ product.id) →
      (∀ r ∈ recommendSimilar env catalog product limit, r.id ≠ product.id) ∧
      (recommendSimilar env catalog product limit).length ≤ limit ∧
      ((recommendSimilar env catalog product limit).map NormalizedProduct.id).Nodup := by
  intro env catalog product limit hlim hcat hbase hother
  obtain ⟨h1, h2, h3, _⟩ := recommendSimilar_sound hlim hcat hbase hother
  exact ⟨h1, h2, h3⟩

/-- C1 (witness): the amended claim at a concrete instance. -/
theorem C1_witness :
    (∀ r ∈ recommendSimilar errEnv [p1, p3] p1 1, r.id ≠ p1.id) ∧
    (recommendSimilar errEnv [p1, p3] p1 1).length ≤ 1 ∧
    ((recommendSimilar errEnv [p1, p3] p1 1).map NormalizedProduct.id).Nodup :=
  C1_recommendSimilar_sound errEnv [p1, p3] p1 1 (by decide) (by decide) rfl
    (by decide)

set_option maxRecDepth 40000 in
/-- C2 (counterexample): on a 154-row catalog with a thin "A" category the
merged pool has 154 > 150 entries, refuting the claimed 150 bound for the
merged case. -/
theorem C2_counterexample :
    ¬ ((buildCandidatePool catC2 [] (some (CategoryWhere.exact "A"))).length
      ≤ FALLBACK_POOL_LIMIT) := by
  decide

/-- C2 (amended): for every exclusion set and category filter the candidate
pool contains no entry whose identifier is in the exclusion set and (on a
catalog with pairwise-distinct ids) no two entries with the same identifier;
its length is at most 150 + 4 = 154 in general — the thin filtered result
(at most 4 entries) merged with a supplementary query of at most 150 — and
at most the pool limit 150 whenever no category filter is given. -/
theorem C2_buildCandidatePool_sound :
    ∀ (catalog : List Product) (ex : List String) (f : Option CategoryWhere),
      (catalog.map Product.id).Nodup →
      (∀ e ∈ buildCandidatePool catalog ex f, idStr e.id ∉ ex) ∧
      ((buildCandidatePool catalog ex f).map Product.id).Nodup ∧
      (buildCandidatePool catalog ex f).length ≤ FALLBACK_POOL_LIMIT + 4 ∧
      (filterCategoryFalsy f = true →
        (buildCandidatePool catalog ex f).length ≤ FALLBACK_POOL_LIMIT) := by
  intro catalog ex f hcat
  exact ⟨fun e he => buildCandidatePool_excludes he,
    buildCandidatePool_ids_nodup hcat, buildCandidatePool_length,
    fun hf => buildCandidatePool_length_of_falsy hf⟩

/-- C2 (witness): the amended claim at a concrete instance. -/
theorem C2_witness :
    (∀ e ∈ buildCandidatePool [p1, p2] [idStr p1.id] none, idStr e.id ∉ [idStr p1.id]) ∧
    ((buildCandidatePool [p1, p2] [idStr p1.id] none).map Product.id).Nodup ∧
    (buildCandidatePool [p1, p2] [idStr p1.id] none).length ≤ FALLBACK_POOL_LIMIT + 4 ∧
    (filterCategoryFalsy none = true →
      (buildCandidatePool [p1, p2] [idStr p1.id] none).length ≤ FALLBACK_POOL_LIMIT) :=
  C2_buildCandidatePool_sound [p1, p2] [idStr p1.id] none (by decide)

/-- C3: if every vector-index call raises, the vector path contributes
nothing, no exception escapes (the operation is a total function into plain
lists), the single-product recommendation equals the local fallback ladder
(local scoring, else backstop, else the product itself), and for a non-empty
catalog and limit ≥ 1 the result is non-empty. -/
theorem C3_vector_index_degradation :
    ∀ (env : PineconeEnv) (catalog : List Product) (product : Product) (limit : Nat),
      (∀ retry id k, env.queryById retry id k = Except.error ()) →
      (∀ v k, env.queryByVector v k = Except.error ()) →
      (∀ retry ids, env.fetchVectors retry ids = Except.error ()) →
      (∀ p, env.ensureSynced p = Except.error ()) →
      catalog ≠ [] → 1 ≤ limit →
      pineconeSimilarRecommendations env catalog product limit = [] ∧
      recommendSimilar env catalog product limit
        = fallbackSimilarProducts catalog product limit ∧
      recommendSimilar env catalog product limit ≠ [] := by
  intro env catalog product limit hq _hv _hf hsync _hcat _hlim
  refine ⟨pineconeSimilar_throwing hq hsync, recommendSimilar_throwing hq hsync, ?_⟩
  rw [recommendSimilar_throwing hq hsync]
  exact fallbackSimilarProducts_ne_nil catalog product limit

/-- C3 (witness): the degradation claim at a concrete throwing environment. -/
theorem C3_witness :
    pineconeSimilarRecommendations errEnv [p1] p1 5 = [] ∧
    recommendSimilar errEnv [p1] p1 5 = fallbackSimilarProducts [p1] p1 5 ∧
    recommendSimilar errEnv [p1] p1 5 ≠ [] :=
  C3_vector_index_degradation errEnv [p1] p1 5 (fun _ _ _ => rfl) (fun _ _ => rfl)
    (fun _ _ => rfl) (fun _ => rfl) (by decide) (by decide)

/-- C4: the source's composite score equals the spec's weighted formula
`3·[category equal] + 2·[brand equal] + 3·nameJaccard + 1·descriptionJaccard
+ 2·priceAffinity` where tokenization lower-cases and splits on runs of
non-alphanumeric characters discarding empty tokens, the Jaccard similarity
of token sets is `|A ∩ B| / |A ∪ B|` (0 if either is empty), and missing
optional fields make their term 0. -/
theorem C4_score_refines_spec :
    ∀ a b : Product, computeSimilarityScore a b = specScore a b := by
  intro a b
  exact computeSimilarityScore_eq_spec a b

/-- C5 (counterexample): a product whose category, brand, name, description
and price are all non-empty, yet whose name and description contain no
alphanumeric characters, scores 7 ≠ 11 against itself — both text terms
vanish because the token sets are empty. -/
theorem C5_counterexample :
    exC5.category = some "A" ∧ exC5.brand = some "B" ∧ exC5.name = "." ∧
    exC5.description = "." ∧ exC5.price = some 1 ∧
    computeSimilarityScore exC5 exC5 ≠ 11 := by
  with_unfolding_all decide

/-- C5 (amended): the self-score is the maximal 3+2+3+1+2 = 11 whenever
category and brand are truthy, name and description each yield at least one
token, and the price is numeric. -/
theorem C5_self_score_max :
    ∀ (a : Product) (p : ℚ),
      strTruthy a.category = true → strTruthy a.brand = true →
      tokenize a.name ≠ [] → tokenize a.description ≠ [] →
      a.price = some p →
      computeSimilarityScore a a = 11 := by
  intro a p h1 h2 h3 h4 h5
  exact computeSimilarityScore_self_max h1 h2 h3 h4 h5

/-- C5 (witness): the amended claim at a concrete product. -/
theorem C5_witness : computeSimilarityScore p1 p1 = 11 :=
  C5_self_score_max p1 10 (by decide) (by decide) (by decide) (by decide) rfl

/-- C6: the composite score is symmetric — category and brand equality,
both Jaccard text terms and the price-affinity term are each symmetric in
the two entries. -/
theorem C6_score_symmetric :
    ∀ a b : Product, computeSimilarityScore a b = computeSimilarityScore b a := by
  intro a b
  exact computeSimilarityScore_comm a b

/-- C7: price affinity equals `1 − min(|pa − pb| / max(pa, pb, 1), 1)` on
numeric prices, lies in [0, 1], is 0 when either price is not numeric, and
the composite score is a (rational) number ≥ 0 for all inputs. -/
theorem C7_price_affinity_bounds :
    ∀ a b : Product,
      0 ≤ priceAffinity a b ∧ priceAffinity a b ≤ 1 ∧
      ((a.price = none ∨ b.price = none) → priceAffinity a b = 0) ∧
      (∀ p q : ℚ, a.price = some p → b.price = some q →
        priceAffinity a b = 1 - min (|p - q| / max p (max q 1)) 1) ∧
      0 ≤ computeSimilarityScore a b := by
  intro a b
  refine ⟨priceAffinity_nonneg a b, priceAffinity_le_one a b,
    fun h => priceAffinity_none h, ?_, computeSimilarityScore_nonneg a b⟩
  intro p q hp hq
  unfold priceAffinity
  rw [hp, hq]

/-- C7 (witness): the bounds claim applied at concrete numeric prices. -/
theorem C7_witness :
    priceAffinity p1 p2 = 1 - min (|(10:ℚ) - 12| / max 10 (max 12 1)) 1 ∧
    0 ≤ computeSimilarityScore p1 p2 :=
  ⟨(C7_price_affinity_bounds p1 p2).2.2.2.1 10 12 rfl rfl,
    (C7_price_affinity_bounds p1 p2).2.2.2.2⟩

set_option maxRecDepth 40000 in
/-- C8: on the spec's three-entry catalog, single-product recommendation for
entry 1 with limit 2 and a non-responding vector index scores entry 2
strictly above entry 3 and returns exactly [entry 2, entry 3]. -/
theorem C8_concrete_scenario :
    computeSimilarityScore p1 p3 < computeSimilarityScore p1 p2 ∧
    recommendSimilar errEnv [p1, p2, p3] p1 2
      = [normalizeProduct p2, normalizeProduct p3] := by
  with_unfolding_all decide

/-- C9 (counterexample): with a catalog holding only the single input
product and a non-responding vector index, the group recommendation returns
that very product (the backstop drops the exclusion when it would otherwise
return nothing), so it does not always exclude every input identifier. -/
theorem C9_counterexample :
    ¬ (∀ r ∈ recommendForGroup errEnv [p1] [p1] 10, ∀ p ∈ [p1], r.id ≠ p.id) := by
  decide

/-- C9 (amended): for every environment, non-empty input list, limit ≥ 1,
catalog with pairwise-distinct ids whose every input's vector-index key is
its own id, if the catalog holds a product outside the input set then group
recommendation excludes every input identifier, returns at most `limit`
id-distinct entries; the group rank score is the maximum of the similarity
scores against the input products, and whenever the candidate pool is
non-empty the local-scoring fallback returns pool rows sorted descending by
that score, deduplicated and capped at the limit. -/
theorem C9_group_sound :
    ∀ (env : PineconeEnv) (catalog : List Product) (products : List Product)
      (limit : Nat),
      products ≠ [] → 1 ≤ limit →
      (catalog.map Product.id).Nodup →
      (∀ p ∈ products, baseIdOf p = idStr p.id) →
      (∃ q ∈ catalog, ∀ p ∈ products, q.id ≠ p.id) →
      (∀ r ∈ recommendForGroup env catalog products limit,
        ∀ p ∈ products, r.id ≠ p.id) ∧
      (recommendForGroup env catalog products limit).length ≤ limit ∧
      ((recommendForGroup env catalog products limit).map
        NormalizedProduct.id).Nodup ∧
      (∀ (c p : Product), p ∈ products →
        computeSimilarityScore p c ≤ groupScore products c) ∧
      (∀ c : Product, ∃ p ∈ products,
        groupScore products c = computeSimilarityScore p c) ∧
      (buildCandidatePool catalog (products.map (fun p => idStr p.id))
          (groupFilter products) ≠ [] →
        ∃ raws : List Product,
          fallbackRecommendationsForGroup catalog products limit
            = raws.map normalizeProduct ∧
          raws.Pairwise (fun a b => groupScore products b ≤ groupScore products a) ∧
          (∀ c ∈ raws, c ∈ buildCandidatePool catalog
            (products.map (fun p => idStr p.id)) (groupFilter products)) ∧
          raws.length ≤ limit ∧
          (raws.map Product.id).Nodup) := by
  intro env catalog products limit hne hlim hcat hbase hother
  obtain ⟨h1, h2, h3, _⟩ := recommendForGroup_sound hlim hcat hbase hother
  refine ⟨h1, h2, h3, ?_, ?_, ?_⟩
  · intro c p hp
    exact groupScore_ge hp
  · intro c
    exact groupScore_attained c hne
  · intro hpoolne
    obtain ⟨raws, e1, e2, e3, e4, e5, _⟩ :=
      fallbackRecommendationsForGroup_ranked hlim hpoolne
    exact ⟨raws, e1, e2, e3, e4, e5⟩

/-- C9 (witness): the amended claim at a concrete instance. -/
theorem C9_witness :
    (∀ r ∈ recommendForGroup errEnv [p1, p3] [p1] 1, ∀ p ∈ [p1], r.id ≠ p.id) ∧
    (recommendForGroup errEnv [p1, p3] [p1] 1).length ≤ 1 ∧
    ((recommendForGroup errEnv [p1, p3] [p1] 1).map NormalizedProduct.id).Nodup ∧
    (∀ (c p : Product), p ∈ [p1] → computeSimilarityScore p c ≤ groupScore [p1] c) ∧
    (∀ c : Product, ∃ p ∈ [p1], groupScore [p1] c = computeSimilarityScore p c) ∧
    (buildCandidatePool [p1, p3] ([p1].map (fun p => idStr p.id))
        (groupFilter [p1]) ≠ [] →
      ∃ raws : List Product,
        fallbackRecommendationsForGroup [p1, p3] [p1] 1
          = raws.map normalizeProduct ∧
        raws.Pairwise (fun a b => groupScore [p1] b ≤ groupScore [p1] a) ∧
        (∀ c ∈ raws, c ∈ buildCandidatePool [p1, p3]
          ([p1].map (fun p => idStr p.id)) (groupFilter [p1])) ∧
        raws.length ≤ 1 ∧
        (raws.map Product.id).Nodup) :=
  C9_group_sound errEnv [p1, p3] [p1] 1 (by decide) (by decide) (by decide)
    (by decide) (by decide)

/-- C10: under a real random draw `q ∈ [0, 1)`, `advanceStatus` never
decreases `statusIndex`, increases it by at most 2 per call, never moves it
past the final status of the fixed eleven-step flow, appends exactly one
history entry per index step taken, and when `statusIndex` is at (or past)
the final status it returns `{advanced := false, updates := []}` leaving
the order unchanged. -/
theorem C10_advance_status :
    ∀ (q : ℚ) (order : OrderState), 0 ≤ q → q < 1 →
      ORDER_STATUS_FLOW.length = 11 ∧
      order.statusIndex ≤ (advanceStatus q order).2.statusIndex ∧
      (advanceStatus q order).2.statusIndex ≤ order.statusIndex + 2 ∧
      (order.statusIndex < 10 → (advanceStatus q order).2.statusIndex ≤ 10) ∧
      (advanceStatus q order).2.statusHistory
        = order.statusHistory ++ (advanceStatus q order).1.updates ∧
      (advanceStatus q order).1.updates.length
        = (advanceStatus q order).2.statusIndex - order.statusIndex ∧
      (10 ≤ order.statusIndex →
        (advanceStatus q order).1 = { advanced := false, updates := [] } ∧
        (advanceStatus q order).2 = order) := by
  intro q order h0 h1
  exact advanceStatus_spec q order h0 h1

/-- C10 (witness): the claim at the draw 0 and a fresh order state. -/
theorem C10_witness :
    ORDER_STATUS_FLOW.length = 11 ∧
    (⟨0, []⟩ : OrderState).statusIndex
      ≤ (advanceStatus 0 ⟨0, []⟩).2.statusIndex ∧
    (advanceStatus 0 ⟨0, []⟩).2.statusIndex
      ≤ (⟨0, []⟩ : OrderState).statusIndex + 2 ∧
    ((⟨0, []⟩ : OrderState).statusIndex < 10 →
      (advanceStatus 0 ⟨0, []⟩).2.statusIndex ≤ 10) ∧
    (advanceStatus 0 ⟨0, []⟩).2.statusHistory
      = (⟨0, []⟩ : OrderState).statusHistory
        ++ (advanceStatus 0 ⟨0, []⟩).1.updates ∧
    (advanceStatus 0 ⟨0, []⟩).1.updates.length
      = (advanceStatus 0 ⟨0, []⟩).2.statusIndex
        - (⟨0, []⟩ : OrderState).statusIndex ∧
    (10 ≤ (⟨0, []⟩ : OrderState).statusIndex →
      (advanceStatus 0 ⟨0, []⟩).1 = { advanced := false, updates := [] } ∧
      (advanceStatus 0 ⟨0, []⟩).2 = (⟨0, []⟩ : OrderState)) :=
  C10_advance_status 0 ⟨0, []⟩ (le_refl 0) zero_lt_one
